import Mathlib

/-!
Verification of the genome representation and evolution engine of the Clage
repository (`src/genome.py`): the graph encoding of a small neural network,
its activation algorithm, its mutation operators and its crossover operator.

Python floats are modelled by an arbitrary linearly ordered field, instantiated
with `ℚ` for executable witnesses and with `ℝ` for the statements about the
`tanh` nonlinearity.  Python's process-wide `counter` object is modelled by
explicit `Nat` state threading at the call sites that actually invoke it.

A Python quirk faithfully embedded here: in `genome.py` the constructors read
`def __init__(self, ntype, idx: int = counter())`.  The default value
`counter()` is evaluated once, when the class definition is executed, not once
per call — so every `Node(...)` built without an explicit id receives the same
id, and likewise every `Connection(...)`.  See `nodeDefaultIdx` and
`connDefaultIdx` below.
-/

namespace Clage

/-! ### List helpers (Python iteration patterns) -/

/-- Update the element at position `p`, leaving the list unchanged if `p` is
out of range.  Models in-place mutation of the object stored at a position. -/
def modifyAt {β : Type} (f : β → β) : List β → Nat → List β
  | [], _ => []
  | a :: l, 0 => f a :: l
  | a :: l, p + 1 => a :: modifyAt f l p

/-- `enumerate` starting at index `i`. -/
def indexedFrom {β : Type} : Nat → List β → List (Nat × β)
  | _, [] => []
  | i, a :: l => (i, a) :: indexedFrom (i + 1) l

/-- Python's `enumerate`: pair every element with its position. -/
def indexed {β : Type} (l : List β) : List (Nat × β) :=
  indexedFrom 0 l

/-- Python's `random.choice`, with the uniform draw modelled by an arbitrary
natural number reduced modulo the length.  Call sites guard non-emptiness. -/
def pick {β : Type} (l : List β) (k : Nat) (d : β) : β :=
  l.getD (k % l.length) d

/-- Position of the first element satisfying `p`, or `none`; models looking up
the first object matching a condition so that the object can be mutated. -/
def firstIdx {β : Type} (p : β → Bool) : List β → Option Nat
  | [] => none
  | a :: l => if p a then some 0 else (firstIdx p l).map (· + 1)

/-- Stable insertion by a `Nat` key: the new element is placed before every
element with a strictly larger key and after every element with a smaller or
equal key already present. -/
def insertByKey {β : Type} (key : β → Nat) (x : β) : List β → List β
  | [] => [x]
  | y :: ys => if key y < key x then y :: insertByKey key x ys else x :: y :: ys

/-- Stable sort by a `Nat` key; models Python's stable `sorted(..., key=...)`. -/
def sortByKey {β : Type} (key : β → Nat) : List β → List β
  | [] => []
  | x :: xs => insertByKey key x (sortByKey key xs)

/-- First-occurrence deduplication with an explicit seen-set accumulator. -/
def dedupFirstAux (seen : List Nat) : List Nat → List Nat
  | [] => []
  | x :: xs => if x ∈ seen then dedupFirstAux seen xs else x :: dedupFirstAux (seen ++ [x]) xs

/-- First-occurrence deduplication; models iteration over the keys of a Python
dict built by successive insertion. -/
def dedupFirst (l : List Nat) : List Nat := dedupFirstAux [] l

/-! ### Data model (`Node`, `Connection`, `Genome` from `genome.py`) -/

inductive NodeType : Type
  | INPUT
  | OUTPUT
  | HIDDEN
deriving DecidableEq, Repr

/-- A graph node: identifier, kind and transient activation value. -/
structure Node (α : Type) : Type where
  idx : Nat
  ntype : NodeType
  value : α
deriving DecidableEq, Repr

/-- A weighted, possibly disabled edge between node ids; `idx` is the gene's
innovation number. -/
structure Connection (α : Type) : Type where
  idx : Nat
  in_node : Nat
  out_node : Nat
  weight : α
  enabled : Bool
deriving DecidableEq, Repr

/-- A genome: node list, connection list and fitness bookkeeping.  The unused
`species` field of the source (always `None` in this module) is not modelled. -/
structure Genome (α : Type) : Type where
  nodes : List (Node α)
  connections : List (Connection α)
  fitness : α
  adjusted_fitness : α
deriving DecidableEq, Repr

/-- The id every `Node(...)` created without an explicit id receives: the
default `idx: int = counter()` of `Node.__init__` is evaluated exactly once,
while the class statement runs, at which point the fresh counter returns 1. -/
def nodeDefaultIdx : Nat := 1

/-- The id every `Connection(...)` created without an explicit id receives:
the default of `Connection.__init__` is evaluated once, immediately after the
`Node` class body, at which point the counter returns 2. -/
def connDefaultIdx : Nat := 2

variable {α : Type} [LinearOrderedField α]

/-- Fallback connection used to express `pick` on a list that the caller has
already checked to be non-empty. -/
def defaultConn : Connection α := ⟨0, 0, 0, 0, true⟩

/-! ### Mutation operators (`Genome.mutate_*` in `genome.py`) -/

/-- Per-connection random outcome of `mutate_weight`: the probability gate did
not fire (`keep`), it fired and the 10% fresh-value branch was taken with
uniform sample `r` (`fresh`), or the Gaussian-perturbation branch was taken
with noise `d` (`nudge`). -/
inductive WeightRand (α : Type) : Type
  | keep
  | fresh (r : α)
  | nudge (d : α)

/-- The loop body of `mutate_weight`: connection `i` gets weight
`r * 4 - 2` on the fresh branch, and `max (-2) (min 2 (w + d))` on the
perturbation branch. -/
def mutateWeightGo (out : Nat → WeightRand α) : Nat → List (Connection α) → List (Connection α)
  | _, [] => []
  | i, c :: cs =>
    (match out i with
      | .keep => c
      | .fresh r => { c with weight := r * 4 - 2 }
      | .nudge d => { c with weight := max (-2) (min 2 (c.weight + d)) }) ::
      mutateWeightGo out (i + 1) cs

/-- `Genome.mutate_weight`. -/
def mutate_weight (out : Nat → WeightRand α) (g : Genome α) : Genome α :=
  { g with connections := mutateWeightGo out 0 g.connections }

/-- `Genome.mutate_link`: `i` and `j` model the two `random.choice` draws and
`r ∈ [0,1)` the uniform sample for the weight `r * 2 - 1`.  The appended
connection carries `connDefaultIdx` because the source omits `idx`. -/
def mutate_link (g : Genome α) (i j : Nat) (r : α) : Genome α :=
  let available := g.nodes.map (fun n => n.idx)
  if available.length < 2 then g
  else
    let in_node := pick available i 0
    let possible := available.filter (fun n => n != in_node)
    if possible = [] then g
    else
      let out_node := pick possible j 0
      if g.connections.any (fun c => c.in_node == in_node && c.out_node == out_node) then g
      else
        { g with connections :=
            g.connections ++ [⟨connDefaultIdx, in_node, out_node, r * 2 - 1, true⟩] }

/-- `Genome.mutate_node`: `k` models the `random.choice` over all connections
(the source draws from the full list and returns if the drawn connection is
disabled).  The inserted hidden node carries `nodeDefaultIdx` and both new
connections carry `connDefaultIdx`, because the source omits the ids. -/
def mutate_node (g : Genome α) (k : Nat) : Genome α :=
  if g.connections.isEmpty then g
  else
    let conn := pick g.connections k defaultConn
    if conn.enabled = false then g
    else
      let disabled := modifyAt (fun c => { c with enabled := false })
        g.connections (k % g.connections.length)
      let new_node : Node α := ⟨nodeDefaultIdx, NodeType.HIDDEN, 0⟩
      let conn1 : Connection α := ⟨connDefaultIdx, conn.in_node, nodeDefaultIdx, 1, true⟩
      let conn2 : Connection α := ⟨connDefaultIdx, nodeDefaultIdx, conn.out_node, conn.weight, true⟩
      { g with nodes := g.nodes ++ [new_node], connections := disabled ++ [conn1, conn2] }

/-- `Genome.mutate_toggle`: flip `enabled` on the drawn connection. -/
def mutate_toggle (g : Genome α) (k : Nat) : Genome α :=
  if g.connections.isEmpty then g
  else
    { g with connections := (modifyAt (fun c => { c with enabled := !c.enabled })
        g.connections (k % g.connections.length)) }

/-- `Genome.mutate_bias`: when there is an output node and the coin flip
succeeds, add the Gaussian sample `d` to the value of the drawn output node.
The draw is over the objects of the filtered list, modelled positionally. -/
def mutate_bias (g : Genome α) (coin : Bool) (k : Nat) (d : α) : Genome α :=
  let outPos := ((indexed g.nodes).filter (fun q => q.2.ntype == NodeType.OUTPUT)).map Prod.fst
  if !outPos.isEmpty && coin then
    { g with nodes := (modifyAt (fun n => { n with value := n.value + d })
        g.nodes (pick outPos k 0)) }
  else g

/-- The genome built by `Model.__init__`: `input_size` input nodes and
`output_size` output nodes — every one carrying `nodeDefaultIdx`, since the
source passes no id — an empty connection list, then
`input_size * output_size` calls of `mutate_link`, whose random draws are
supplied by `rnd`.  The final `counter.reset()` touches only the process-wide
counter, which this constructor never reads. -/
def Model_init (input_size output_size : Nat) (rnd : Nat → Nat × Nat × α) : Genome α :=
  let input_nodes : List (Node α) :=
    List.replicate input_size ⟨nodeDefaultIdx, NodeType.INPUT, 0⟩
  let output_nodes : List (Node α) :=
    List.replicate output_size ⟨nodeDefaultIdx, NodeType.OUTPUT, 0⟩
  let g0 : Genome α := ⟨input_nodes ++ output_nodes, [], 0, 0⟩
  (List.range (input_size * output_size)).foldl
    (fun g t => mutate_link g (rnd t).1 (rnd t).2.1 (rnd t).2.2) g0

/-! ### Activation engine (`Genome.activate` in `genome.py`)

Failure of the node lookup `next(n for n in self.nodes if n.idx == ...)`
raises in Python; it is modelled by `Option`.  Node objects are identified
with their positions in the node list, so the embedding is faithful even for
genomes with duplicated node ids. -/

/-- The reset loop: set `value` to 0 on every non-input node. -/
def resetNodes (ns : List (Node α)) : List (Node α) :=
  ns.map (fun n => if n.ntype = NodeType.INPUT then n else { n with value := 0 })

/-- The input nodes paired with their positions, stably sorted by id:
`sorted([n for n in self.nodes if n.ntype == INPUT], key=lambda x: x.idx)`. -/
def inputPairs (ns : List (Node α)) : List (Nat × Node α) :=
  sortByKey (fun q => q.2.idx) ((indexed ns).filter (fun q => q.2.ntype == NodeType.INPUT))

/-- Assign `inputs[i]` to the i-th input node in sorted order; `zip` models
the truncation `input_nodes[:len(inputs)]`. -/
def setInputs (ns : List (Node α)) (xs : List α) : List (Node α) :=
  (((inputPairs ns).map Prod.fst).zip xs).foldl
    (fun acc pv => modifyAt (fun n => { n with value := pv.2 }) acc pv.1) ns

/-- One connection of the propagation loop: look up the first node with the
source id and the first node with the target id (error if either is absent),
then add `source.value * weight` — 0 when disabled — to the target's value. -/
def applyConn (ns : List (Node α)) (c : Connection α) : Option (List (Node α)) :=
  match ns.find? (fun n => n.idx == c.in_node), firstIdx (fun n => n.idx == c.out_node) ns with
  | some src, some p =>
      some (modifyAt
        (fun n => { n with value := n.value + (if c.enabled then src.value * c.weight else 0) })
        ns p)
  | _, _ => none

/-- One propagation pass: every connection in list order, then the activation
function applied in place to every non-input node. -/
def onePass (act : α → α) (conns : List (Connection α)) (ns : List (Node α)) :
    Option (List (Node α)) := do
  let ns1 ← conns.foldlM applyConn ns
  pure (ns1.map (fun n => if n.ntype = NodeType.INPUT then n else { n with value := act n.value }))

/-- `Genome.activate`, returning both the post-activation node list (the
genome's mutated state) and the returned output vector. -/
def activateFull (act : α → α) (g : Genome α) (xs : List α) :
    Option (List (Node α) × List α) := do
  let ns0 := resetNodes g.nodes
  let ns1 := setInputs ns0 xs
  let ns2 ← onePass act g.connections ns1
  let ns3 ← onePass act g.connections ns2
  let ns4 ← onePass act g.connections ns3
  pure (ns4,
    (sortByKey (fun n => n.idx) (ns4.filter (fun n => n.ntype == NodeType.OUTPUT))).map
      (fun n => n.value))

/-- The return value of `Genome.activate`: the output-node values by
ascending id. -/
def activate (act : α → α) (g : Genome α) (xs : List α) : Option (List α) :=
  (activateFull act g xs).map Prod.snd

/-! ### Reference activation algorithm, written from the specification text

The spec describes the update per step in terms of node ids ("look up its
source and target nodes by id", "assign `inputs[i]` to the i-th Input node"),
so this version keys every write by node id instead of by position. -/

/-- Update the node carrying the given id. -/
def updateById (id : Nat) (f : Node α → Node α) (ns : List (Node α)) : List (Node α) :=
  ns.map (fun n => if n.idx = id then f n else n)

/-- Spec step 2 as the specification words it: sort the input nodes by id and
assign `inputs[i]` to the i-th of them; inputs beyond the count of input
nodes are ignored, and input nodes beyond the input length keep value 0
(rendered by assigning the i-th sorted input node `inputs.getD i 0`). -/
def specSetInputs (ns : List (Node α)) (xs : List α) : List (Node α) :=
  (indexed ((sortByKey (fun n => n.idx) (ns.filter (fun n => n.ntype == NodeType.INPUT))).map
      (fun n => n.idx))).foldl
    (fun acc iq => updateById iq.2 (fun n => { n with value := xs.getD iq.1 0 }) acc) ns

/-- Spec step 2 as the code realizes it: identical to `specSetInputs` except
that input nodes beyond the input length keep their previous value — the
reset of `activate` touches only non-input nodes, and the assignment loop
`input_nodes[:len(inputs)]` never reaches them. -/
def specSetInputsKeep (ns : List (Node α)) (xs : List α) : List (Node α) :=
  (((sortByKey (fun n => n.idx) (ns.filter (fun n => n.ntype == NodeType.INPUT))).map
      (fun n => n.idx)).zip xs).foldl
    (fun acc iv => updateById iv.1 (fun n => { n with value := iv.2 }) acc) ns

/-- Spec step 3a for one connection: resolve source and target by id (absence
is a fatal contract violation) and add the contribution — 0 when disabled —
to the target node's value. -/
def specApplyConn (ns : List (Node α)) (c : Connection α) : Option (List (Node α)) := do
  let src ← ns.find? (fun n => n.idx == c.in_node)
  let _tgt ← ns.find? (fun n => n.idx == c.out_node)
  pure (updateById c.out_node
    (fun n => { n with value := n.value + (if c.enabled then src.value * c.weight else 0) }) ns)

/-- Spec steps 3a and 3b: apply every connection, then the nonlinearity to
every non-input node. -/
def specPass (act : α → α) (conns : List (Connection α)) (ns : List (Node α)) :
    Option (List (Node α)) := do
  let ns1 ← conns.foldlM specApplyConn ns
  pure (ns1.map (fun n => if n.ntype = NodeType.INPUT then n else { n with value := act n.value }))

/-- The reference algorithm of spec §4.3 as the specification and claim word
it (surplus input nodes keep value 0): reset, assign inputs, exactly three
accumulated passes, then the output-node values by ascending id. -/
def activateSpec (act : α → α) (g : Genome α) (xs : List α) :
    Option (List (Node α) × List α) := do
  let ns0 := resetNodes g.nodes
  let ns1 := specSetInputs ns0 xs
  let ns2 ← specPass act g.connections ns1
  let ns3 ← specPass act g.connections ns2
  let ns4 ← specPass act g.connections ns3
  pure (ns4,
    (sortByKey (fun n => n.idx) (ns4.filter (fun n => n.ntype == NodeType.OUTPUT))).map
      (fun n => n.value))

/-- The reference algorithm with the code's one deviation from the spec text:
input nodes beyond the input length keep their previous value instead of 0. -/
def activateSpecKeep (act : α → α) (g : Genome α) (xs : List α) :
    Option (List (Node α) × List α) := do
  let ns0 := resetNodes g.nodes
  let ns1 := specSetInputsKeep ns0 xs
  let ns2 ← specPass act g.connections ns1
  let ns3 ← specPass act g.connections ns2
  let ns4 ← specPass act g.connections ns3
  pure (ns4,
    (sortByKey (fun n => n.idx) (ns4.filter (fun n => n.ntype == NodeType.OUTPUT))).map
      (fun n => n.value))

/-! ### Crossover engine (`Genome.crossover` in `genome.py`) -/

/-- Mutable state visible to `crossover`: the process-wide counter value and
the two parent genomes (`self` is `a`, `partner` is `b`). -/
structure CrossState (α : Type) : Type where
  cnt : Nat
  a : Genome α
  b : Genome α

/-- Loop body of the child-node construction: state is (child nodes so far,
old-id → new-id map, counter).  A node whose id was already seen is skipped;
otherwise it is copied, given the next counter value as id, and recorded. -/
def childNodeStep (st : List (Node α) × List (Nat × Nat) × Nat) (n : Node α) :
    List (Node α) × List (Nat × Nat) × Nat :=
  match st.2.1.lookup n.idx with
  | some _ => st
  | none => (st.1 ++ [⟨st.2.2 + 1, n.ntype, n.value⟩], st.2.1 ++ [(n.idx, st.2.2 + 1)], st.2.2 + 1)

/-- Visit the parents' nodes in order (`self` first) and build the child's
node list, the id map and the advanced counter. -/
def buildChildNodes (ns : List (Node α)) (cnt : Nat) :
    List (Node α) × List (Nat × Nat) × Nat :=
  ns.foldl childNodeStep ([], [], cnt)

/-- Which parent connection the loop inherits for innovation id `innov`:
a uniform draw over both parents' copies when both carry the gene, the first
copy of the single carrier otherwise, nothing when neither carries it (the
`continue` branch, unreachable for ids harvested from the parents). -/
def selectConn (a b : Genome α) (picks : Nat → Nat) (innov : Nat) : Option (Connection α) :=
  let sc := a.connections.filter (fun c => c.idx == innov)
  let pc := b.connections.filter (fun c => c.idx == innov)
  if sc ≠ [] ∧ pc ≠ [] then (sc ++ pc)[(picks innov) % (sc ++ pc).length]?
  else if sc ≠ [] then sc.head?
  else if pc ≠ [] then pc.head?
  else none

/-- Loop body of the child-connection construction: inherit the selected
parent connection, remapping its endpoints through the node map (a missing
key is Python's `KeyError`, hence `none`) and keeping gene id, weight and
enabled flag. -/
def childConnStep (m : List (Nat × Nat)) (a b : Genome α) (picks : Nat → Nat)
    (acc : List (Connection α)) (innov : Nat) : Option (List (Connection α)) :=
  match selectConn a b picks innov with
  | none => some acc
  | some pconn =>
    match m.lookup pconn.in_node, m.lookup pconn.out_node with
    | some ni, some no => some (acc ++ [⟨pconn.idx, ni, no, pconn.weight, pconn.enabled⟩])
    | _, _ => none

/-- `Genome.crossover`.  Returns the post-call state (parents and counter)
together with the offspring; `none` models the `KeyError` a dangling parent
connection raises.  Innovation ids are visited in dict insertion order, i.e.
first occurrence within `self.connections + partner.connections`. -/
def crossover (s : CrossState α) (picks : Nat → Nat) : CrossState α × Option (Genome α) :=
  let (child_nodes, node_map, cnt1) := buildChildNodes (s.a.nodes ++ s.b.nodes) s.cnt
  let innovs := dedupFirst ((s.a.connections ++ s.b.connections).map (fun c => c.idx))
  let child_conns := innovs.foldlM (childConnStep node_map s.a s.b picks) []
  ({ s with cnt := cnt1 }, child_conns.map (fun cs => ⟨child_nodes, cs, 0, 0⟩))

/-! ### Proof-level definitions and concrete instances

`nshape` is the per-position (id, kind) skeleton of a node list, used to show
that activation only rewrites node values.  The concrete genomes below are
the inputs of the counterexamples and witnesses. -/

/-- The per-position (id, kind) skeleton of a node list. -/
def nshape {α : Type} (ns : List (Node α)) : List (Nat × NodeType) :=
  ns.map (fun n => (n.idx, n.ntype))

/-- A genome with one disabled and one enabled connection; the random draw of
`mutate_node` ranges over all connections, so it can land on the disabled
one. -/
def c3Genome : Genome ℚ :=
  ⟨[⟨1, NodeType.INPUT, 0⟩, ⟨2, NodeType.OUTPUT, 0⟩],
   [⟨5, 1, 2, 0, false⟩, ⟨6, 1, 2, 1, true⟩], 0, 0⟩

/-- Genome for the C3 witness, matching the spec's worked example: a single
enabled connection with gene id 5 and weight 0.7. -/
def c3WitnessGenome : Genome ℚ :=
  ⟨[⟨1, NodeType.INPUT, 0⟩, ⟨2, NodeType.OUTPUT, 0⟩], [⟨5, 1, 2, 7/10, true⟩], 0, 0⟩

/-- Genome for the C6 witness: one connection sitting at the clamp boundary. -/
def c6Genome : Genome ℚ := ⟨[], [⟨3, 1, 2, 2, true⟩], 0, 0⟩

/-- Random outcomes for the C6 witness: one mutation round taking the
fresh-value branch with uniform sample 1/2. -/
def c6Outs : List (Nat → WeightRand ℚ) := [fun _ => WeightRand.fresh (1/2)]

/-- Genome for the C7 witness: two nodes with distinct ids, no connections. -/
def c7Genome : Genome ℚ :=
  ⟨[⟨1, NodeType.INPUT, 0⟩, ⟨2, NodeType.OUTPUT, 0⟩], [], 0, 0⟩

/-- Parent used by the C2 counterexample: its single node carries id 1,
exactly what the bootstrap produces. -/
def c2Parent : Genome ℚ := ⟨[⟨1, NodeType.INPUT, 0⟩], [], 0, 0⟩

/-- The crossover state of the C2 counterexample: the allocator counter is 0,
exactly the state `counter.reset()` leaves behind after the bootstrap. -/
def c2State : CrossState ℚ := ⟨0, c2Parent, c2Parent⟩

/-- Parent `a` for the C2/C4 witnesses. -/
def c4ParentA : Genome ℚ :=
  ⟨[⟨1, NodeType.INPUT, 0⟩, ⟨2, NodeType.OUTPUT, 0⟩], [⟨7, 1, 2, 1, true⟩], 0, 0⟩

/-- Parent `b` for the C2/C4 witnesses: shares gene id 7 with different
weight and enabled flag. -/
def c4ParentB : Genome ℚ :=
  ⟨[⟨1, NodeType.INPUT, 0⟩, ⟨3, NodeType.OUTPUT, 0⟩], [⟨7, 1, 3, 0, false⟩], 0, 0⟩

/-- The crossover state of the C2/C4 witnesses: counter already past every
parent node id. -/
def c4State : CrossState ℚ := ⟨10, c4ParentA, c4ParentB⟩

/-- The empty genome, used as concrete input by witnesses over `ℝ`. -/
def emptyGenome : Genome ℝ := ⟨[], [], 0, 0⟩

/-- Genome for the C5 counterexample: pairwise-distinct node ids, and the
input node carries a stale value 1, as left behind by an earlier activation
with a longer input vector.  Activating with an empty input vector makes it a
surplus input node: the code keeps its value 1, while the claim's reference
algorithm says it keeps 0. -/
def c5Genome : Genome ℝ :=
  ⟨[⟨1, NodeType.INPUT, 1⟩, ⟨2, NodeType.OUTPUT, 0⟩], [⟨3, 1, 2, 1, true⟩], 0, 0⟩

/-! ### Helper lemmas about the list combinators -/

theorem length_modifyAt {β : Type} (f : β → β) (l : List β) (p : Nat) :
    (modifyAt f l p).length = l.length := by
  induction l generalizing p with
  | nil => rfl
  | cons a l ih =>
    cases p with
    | zero => rfl
    | succ p => simpa [modifyAt] using ih p

theorem getElem_modifyAt {β : Type} (f : β → β) (l : List β) (p n : Nat)
    (hn : n < l.length) (hn' : n < (modifyAt f l p).length) :
    (modifyAt f l p)[n] = if p = n then f l[n] else l[n] := by
  induction l generalizing p n with
  | nil => simp at hn
  | cons a l ih =>
    cases p with
    | zero =>
      cases n with
      | zero => simp [modifyAt]
      | succ n => simp [modifyAt]
    | succ p =>
      cases n with
      | zero => simp [modifyAt]
      | succ n =>
        have hn2 : n < l.length := by simpa using hn
        have hn2' : n < (modifyAt f l p).length := by
          simpa [length_modifyAt] using hn2
        simpa [modifyAt, Nat.succ_inj'] using ih p n hn2 hn2'

theorem modifyAt_of_ge {β : Type} (f : β → β) (l : List β) (p : Nat)
    (hp : l.length ≤ p) : modifyAt f l p = l := by
  induction l generalizing p with
  | nil => rfl
  | cons a l ih =>
    cases p with
    | zero => simp at hp
    | succ p => simpa [modifyAt] using ih p (by simpa using hp)

theorem pick_mem {β : Type} (l : List β) (k : Nat) (d : β) (h : l ≠ []) :
    pick l k d ∈ l := by
  have hlen : 0 < l.length := List.length_pos.mpr h
  have hk : k % l.length < l.length := Nat.mod_lt _ hlen
  rw [pick, List.getD_eq_getElem?_getD, List.getElem?_eq_getElem hk]
  exact List.getElem_mem hk

theorem mem_indexedFrom {β : Type} (l : List β) :
    ∀ (i : Nat) (q : Nat × β), q ∈ indexedFrom i l →
      ∃ j, j < l.length ∧ q.1 = i + j ∧ l[j]? = some q.2 := by
  induction l with
  | nil => intro i q hq; simp [indexedFrom] at hq
  | cons a l ih =>
    intro i q hq
    rcases (by simpa [indexedFrom] using hq : q = (i, a) ∨ q ∈ indexedFrom (i + 1) l) with h | h
    · exact ⟨0, by simp, by simp [h], by simp [h]⟩
    · obtain ⟨j, hj, hq1, hq2⟩ := ih (i + 1) q h
      exact ⟨j + 1, by simpa using hj, by omega, by simpa using hq2⟩

theorem mem_indexed {β : Type} (l : List β) (q : Nat × β) (hq : q ∈ indexed l) :
    q.1 < l.length ∧ l[q.1]? = some q.2 := by
  obtain ⟨j, hj, hq1, hq2⟩ := mem_indexedFrom l 0 q hq
  constructor
  · omega
  · simpa [hq1] using hq2

theorem mem_insertByKey {β : Type} (key : β → Nat) (x a : β) (l : List β) :
    a ∈ insertByKey key x l ↔ a = x ∨ a ∈ l := by
  induction l with
  | nil => simp [insertByKey]
  | cons y ys ih =>
    by_cases h : key y < key x
    · simp only [insertByKey, if_pos h, List.mem_cons, ih]
      tauto
    · simp only [insertByKey, if_neg h, List.mem_cons]

theorem mem_sortByKey {β : Type} (key : β → Nat) (a : β) (l : List β) :
    a ∈ sortByKey key l ↔ a ∈ l := by
  induction l with
  | nil => simp [sortByKey]
  | cons x xs ih => simp [sortByKey, mem_insertByKey, ih]

theorem length_insertByKey {β : Type} (key : β → Nat) (x : β) (l : List β) :
    (insertByKey key x l).length = l.length + 1 := by
  induction l with
  | nil => rfl
  | cons y ys ih =>
    by_cases h : key y < key x
    · simp [insertByKey, if_pos h, ih]
    · simp [insertByKey, if_neg h]

theorem length_sortByKey {β : Type} (key : β → Nat) (l : List β) :
    (sortByKey key l).length = l.length := by
  induction l with
  | nil => rfl
  | cons x xs ih => simp [sortByKey, length_insertByKey, ih]

theorem map_insertByKey {β γ : Type} (f : β → γ) (key : γ → Nat) (x : β) (l : List β) :
    (insertByKey (fun b => key (f b)) x l).map f = insertByKey key (f x) (l.map f) := by
  induction l with
  | nil => rfl
  | cons y ys ih =>
    by_cases h : key (f y) < key (f x)
    · simp [insertByKey, if_pos h, ih]
    · simp [insertByKey, if_neg h]

theorem map_sortByKey {β γ : Type} (f : β → γ) (key : γ → Nat) (l : List β) :
    (sortByKey (fun b => key (f b)) l).map f = sortByKey key (l.map f) := by
  induction l with
  | nil => rfl
  | cons x xs ih => simp [sortByKey, map_insertByKey, ih]

theorem mem_dedupFirstAux (a : Nat) :
    ∀ (l : List Nat) (seen : List Nat), a ∈ dedupFirstAux seen l ↔ a ∈ l ∧ a ∉ seen := by
  intro l
  induction l with
  | nil => intro seen; simp [dedupFirstAux]
  | cons x xs ih =>
    intro seen
    by_cases hx : x ∈ seen
    · rw [dedupFirstAux, if_pos hx, ih]
      constructor
      · exact fun h => ⟨List.mem_cons_of_mem _ h.1, h.2⟩
      · rintro ⟨h1, h2⟩
        rcases List.mem_cons.mp h1 with rfl | h1
        · exact absurd hx h2
        · exact ⟨h1, h2⟩
    · rw [dedupFirstAux, if_neg hx]
      by_cases hax : a = x
      · subst hax
        simp [hx]
      · simp only [List.mem_cons, hax, false_or, ih, List.mem_append,
          List.mem_singleton, or_iff_left hax]
        tauto

theorem mem_dedupFirst (a : Nat) (l : List Nat) : a ∈ dedupFirst l ↔ a ∈ l := by
  rw [dedupFirst, mem_dedupFirstAux]
  simp

theorem nodup_dedupFirstAux :
    ∀ (l : List Nat) (seen : List Nat), (dedupFirstAux seen l).Nodup := by
  intro l
  induction l with
  | nil => intro seen; simp [dedupFirstAux]
  | cons x xs ih =>
    intro seen
    by_cases hx : x ∈ seen
    · rw [dedupFirstAux, if_pos hx]
      exact ih seen
    · rw [dedupFirstAux, if_neg hx]
      refine List.nodup_cons.mpr ⟨?_, ih (seen ++ [x])⟩
      intro hmem
      have := (mem_dedupFirstAux x xs (seen ++ [x])).mp hmem
      simp at this

theorem nodup_dedupFirst (l : List Nat) : (dedupFirst l).Nodup :=
  nodup_dedupFirstAux l []

theorem lookup_mem {γ : Type} [BEq γ] [LawfulBEq γ] (k : γ) (v : γ) :
    ∀ (m : List (γ × γ)), m.lookup k = some v → (k, v) ∈ m := by
  intro m
  induction m with
  | nil => intro h; simp [List.lookup] at h
  | cons kv m ih =>
    intro h
    rw [List.lookup] at h
    cases hk : k == kv.1 with
    | true =>
      rw [hk] at h
      have : kv = (k, v) := by
        obtain ⟨k', v'⟩ := kv
        simp only at h hk
        simp [(eq_of_beq hk).symm, Option.some_inj.mp h]
      simp [this]
    | false =>
      rw [hk] at h
      exact List.mem_cons_of_mem _ (ih h)

theorem foldl_inv {β γ : Type} (f : β → γ → β) (P : β → Prop)
    (hstep : ∀ b x, P b → P (f b x)) :
    ∀ (l : List γ) (b : β), P b → P (l.foldl f b) := by
  intro l
  induction l with
  | nil => intro b hb; simpa using hb
  | cons x l ih => intro b hb; exact ih (f b x) (hstep b x hb)

theorem foldlM_option_inv {β γ : Type} (step : β → γ → Option β) (P : β → Prop)
    (hstep : ∀ b x b', step b x = some b' → P b → P b') :
    ∀ (l : List γ) (b b' : β), List.foldlM step b l = some b' → P b → P b' := by
  intro l
  induction l with
  | nil => intro b b' h hb; simp [List.foldlM_nil] at h; simpa [← h] using hb
  | cons x l ih =>
    intro b b' h hb
    rw [List.foldlM_cons] at h
    cases hx : step b x with
    | none => simp [hx] at h
    | some b1 =>
      rw [hx] at h
      simp only [Option.bind_eq_bind] at h
      exact ih b1 b' (by simpa using h) (hstep b x b1 hx hb)

theorem firstIdx_some {β : Type} (p : β → Bool) :
    ∀ (l : List β) (i : Nat), firstIdx p l = some i →
      ∃ h : i < l.length, p l[i] = true ∧ ∀ j (hj : j < i), ∃ hjl : j < l.length, p l[j] = false := by
  intro l
  induction l with
  | nil => intro i h; simp [firstIdx] at h
  | cons a l ih =>
    intro i h
    rw [firstIdx] at h
    by_cases hpa : p a
    · rw [if_pos hpa] at h
      obtain rfl : (0 : Nat) = i := Option.some_inj.mp h
      exact ⟨by simp, by simpa using hpa, by omega⟩
    · rw [if_neg hpa] at h
      cases hfi : firstIdx p l with
      | none => simp [hfi] at h
      | some i0 =>
        rw [hfi] at h
        obtain rfl : i0 + 1 = i := by simpa using h
        obtain ⟨hlt, hp, hprev⟩ := ih i0 hfi
        refine ⟨by simpa using hlt, by simpa using hp, ?_⟩
        intro j hj
        cases j with
        | zero => exact ⟨by simp, by simpa using hpa⟩
        | succ j =>
          obtain ⟨hjl, hjp⟩ := hprev j (by omega)
          exact ⟨by simpa using hjl, by simpa using hjp⟩

theorem firstIdx_none {β : Type} (p : β → Bool) :
    ∀ (l : List β), firstIdx p l = none ↔ ∀ x ∈ l, p x = false := by
  intro l
  induction l with
  | nil => simp [firstIdx]
  | cons a l ih =>
    by_cases hpa : p a
    · simp [firstIdx, hpa]
    · simp only [firstIdx, if_neg hpa, Option.map_eq_none', ih, List.mem_cons]
      constructor
      · intro h x hx
        rcases hx with rfl | hx
        · simpa using hpa
        · exact h x hx
      · intro h x hx; exact h x (Or.inr hx)

theorem find?_isSome_iff_firstIdx {β : Type} (p : β → Bool) (l : List β) :
    (l.find? p).isSome ↔ (firstIdx p l).isSome := by
  induction l with
  | nil => simp [firstIdx]
  | cons a l ih =>
    by_cases hpa : p a
    · simp [List.find?, hpa, firstIdx]
    · simp only [List.find?, Bool.not_eq_true] at hpa ⊢
      simp only [firstIdx, hpa, if_false, Bool.false_eq_true]
      simpa [List.find?, hpa] using ih

/-! ### Claim C1 — bootstrap node ids -/

theorem mutate_link_nodes {α : Type} [LinearOrderedField α] (g : Genome α) (i j : Nat) (r : α) :
    (mutate_link g i j r).nodes = g.nodes := by
  simp only [mutate_link]
  split
  · rfl
  split
  · rfl
  split
  · rfl
  · rfl

theorem Model_init_nodes {α : Type} [LinearOrderedField α] (input_size output_size : Nat)
    (rnd : Nat → Nat × Nat × α) :
    (Model_init input_size output_size rnd).nodes =
      List.replicate input_size ⟨nodeDefaultIdx, NodeType.INPUT, 0⟩ ++
        List.replicate output_size ⟨nodeDefaultIdx, NodeType.OUTPUT, 0⟩ := by
  have key : ∀ (l : List Nat) (g : Genome α),
      (l.foldl (fun g t => mutate_link g (rnd t).1 (rnd t).2.1 (rnd t).2.2) g).nodes
        = g.nodes := by
    intro l
    induction l with
    | nil => intro g; rfl
    | cons t l ih => intro g; rw [List.foldl_cons, ih, mutate_link_nodes]
  exact key _ _

/-- Claim C1, refuted on the code: in the bootstrap genome of `Model(1, 1)`
the input node and the output node carry the same id 1, because the
`idx: int = counter()` default of `Node.__init__` was evaluated once at class
definition time, so the ids are not pairwise distinct.  Holds for every
random stream driving the bootstrap link mutations. -/
theorem C1_bootstrap_duplicate_ids (rnd : Nat → Nat × Nat × ℚ) :
    (Model_init 1 1 rnd).nodes.map (fun n => n.idx) = [1, 1] ∧
    ¬ List.Pairwise (· ≠ ·) ((Model_init 1 1 rnd).nodes.map (fun n => n.idx)) := by
  have h := Model_init_nodes 1 1 rnd
  constructor
  · rw [h]; rfl
  · rw [h]; decide

/-! ### Claim C3 — node mutation -/

/-- Claim C3, refuted as stated: `c3Genome` contains an enabled connection,
yet the node mutation drawing connection 0 (which is disabled) leaves the
genome unchanged — the node count does not grow by 1. -/
theorem C3_counterexample :
    (∃ c ∈ c3Genome.connections, c.enabled = true) ∧
    mutate_node c3Genome 0 = c3Genome ∧
    (mutate_node c3Genome 0).nodes.length ≠ c3Genome.nodes.length + 1 := by
  refine ⟨⟨⟨6, 1, 2, 1, true⟩, by decide, rfl⟩, by decide, by decide⟩

/-- Claim C3 as amended: whenever the connection drawn by the node mutation is
enabled, the genome gains exactly one Hidden node (with the constant default
id) and exactly two connections — drawn source → new node with weight 1, and
new node → drawn target with the drawn connection's weight — while the drawn
connection is disabled in place. -/
theorem C3_mutate_node_effect {α : Type} [LinearOrderedField α] (g : Genome α) (k : Nat)
    (hne : g.connections ≠ [])
    (hen : (pick g.connections k defaultConn).enabled = true) :
    (mutate_node g k).nodes.length = g.nodes.length + 1 ∧
    (mutate_node g k).connections.length = g.connections.length + 2 ∧
    (mutate_node g k).nodes = g.nodes ++ [⟨nodeDefaultIdx, NodeType.HIDDEN, 0⟩] ∧
    ∃ c1 c2,
      (mutate_node g k).connections =
        modifyAt (fun c => { c with enabled := false }) g.connections
          (k % g.connections.length) ++ [c1, c2] ∧
      ((mutate_node g k).connections.getD (k % g.connections.length) defaultConn).enabled
        = false ∧
      c1.in_node = (pick g.connections k defaultConn).in_node ∧
      c1.out_node = nodeDefaultIdx ∧ c1.weight = 1 ∧ c1.enabled = true ∧
      c2.in_node = nodeDefaultIdx ∧
      c2.out_node = (pick g.connections k defaultConn).out_node ∧
      c2.weight = (pick g.connections k defaultConn).weight ∧ c2.enabled = true := by
  have hempty : g.connections.isEmpty = false := by
    cases hc : g.connections with
    | nil => exact absurd hc hne
    | cons a l => rfl
  have hlen : 0 < g.connections.length := List.length_pos.mpr hne
  have hpos : k % g.connections.length < g.connections.length := Nat.mod_lt _ hlen
  have hrw : mutate_node g k = { g with
      nodes := g.nodes ++ [⟨nodeDefaultIdx, NodeType.HIDDEN, 0⟩],
      connections := (modifyAt (fun c => { c with enabled := false }) g.connections
          (k % g.connections.length)) ++
        [⟨connDefaultIdx, (pick g.connections k defaultConn).in_node, nodeDefaultIdx, 1, true⟩,
         ⟨connDefaultIdx, nodeDefaultIdx, (pick g.connections k defaultConn).out_node,
           (pick g.connections k defaultConn).weight, true⟩] } := by
    simp only [mutate_node, hempty, Bool.false_eq_true, if_false, hen]
    simp
  rw [hrw]
  refine ⟨by simp, by simp [length_modifyAt], rfl, _, _, rfl, ?_, rfl, rfl, rfl, rfl, rfl,
    rfl, rfl, rfl⟩
  have hmlen : k % g.connections.length <
      (modifyAt (fun c => { c with enabled := false }) g.connections
        (k % g.connections.length)).length := by
    rw [length_modifyAt]; exact hpos
  rw [List.getD_eq_getElem?_getD, List.getElem?_append_left hmlen,
    List.getElem?_eq_getElem hmlen]
  rw [getElem_modifyAt _ _ _ _ hpos hmlen, if_pos rfl]
  rfl

/-- Witness for `C3_mutate_node_effect` at a concrete input. -/
theorem C3_mutate_node_effect_witness :
    (c3WitnessGenome.connections ≠ [] ∧
      (pick c3WitnessGenome.connections 0 defaultConn).enabled = true) ∧
    ((mutate_node c3WitnessGenome 0).nodes.length = c3WitnessGenome.nodes.length + 1 ∧
    (mutate_node c3WitnessGenome 0).connections.length = c3WitnessGenome.connections.length + 2 ∧
    (mutate_node c3WitnessGenome 0).nodes =
      c3WitnessGenome.nodes ++ [⟨nodeDefaultIdx, NodeType.HIDDEN, 0⟩] ∧
    ∃ c1 c2,
      (mutate_node c3WitnessGenome 0).connections =
        modifyAt (fun c => { c with enabled := false }) c3WitnessGenome.connections
          (0 % c3WitnessGenome.connections.length) ++ [c1, c2] ∧
      ((mutate_node c3WitnessGenome 0).connections.getD
          (0 % c3WitnessGenome.connections.length) defaultConn).enabled = false ∧
      c1.in_node = (pick c3WitnessGenome.connections 0 defaultConn).in_node ∧
      c1.out_node = nodeDefaultIdx ∧ c1.weight = 1 ∧ c1.enabled = true ∧
      c2.in_node = nodeDefaultIdx ∧
      c2.out_node = (pick c3WitnessGenome.connections 0 defaultConn).out_node ∧
      c2.weight = (pick c3WitnessGenome.connections 0 defaultConn).weight ∧
      c2.enabled = true) :=
  ⟨⟨by decide, by decide⟩, C3_mutate_node_effect c3WitnessGenome 0 (by decide) (by decide)⟩

/-! ### Claim C6 — weight clamp invariant -/

theorem mutateWeightGo_bounds {α : Type} [LinearOrderedField α] (out : Nat → WeightRand α)
    (hout : ∀ i r, out i = WeightRand.fresh r → 0 ≤ r ∧ r < 1) :
    ∀ (cs : List (Connection α)) (i : Nat),
      (∀ c ∈ cs, -2 ≤ c.weight ∧ c.weight ≤ 2) →
      ∀ c ∈ mutateWeightGo out i cs, -2 ≤ c.weight ∧ c.weight ≤ 2 := by
  intro cs
  induction cs with
  | nil => intro i _ c hc; simp [mutateWeightGo] at hc
  | cons c0 cs ih =>
    intro i hcs c hc
    rw [mutateWeightGo] at hc
    rcases List.mem_cons.mp hc with rfl | hc
    · cases hoi : out i with
      | keep => simpa [hoi] using hcs c0 (by simp)
      | fresh r =>
        obtain ⟨hr0, hr1⟩ := hout i r hoi
        constructor
        · simp only [hoi]; nlinarith
        · simp only [hoi]; nlinarith
      | nudge d =>
        constructor
        · simp only [hoi]; exact le_max_left _ _
        · simp only [hoi]
          exact max_le (by norm_num) (min_le_left _ _)
    · exact ih (i + 1) (fun c' hc' => hcs c' (List.mem_cons_of_mem _ hc')) c hc

/-- Claim C6: if every connection weight of a genome lies in `[-2, 2]`, then
after any number of weight mutations — for any random outcomes whose fresh
uniform samples lie in `[0, 1)` — every connection weight still lies in
`[-2, 2]`. -/
theorem C6_weight_clamp {α : Type} [LinearOrderedField α] (g : Genome α)
    (outs : List (Nat → WeightRand α))
    (hg : ∀ c ∈ g.connections, -2 ≤ c.weight ∧ c.weight ≤ 2)
    (houts : ∀ o ∈ outs, ∀ i r, o i = WeightRand.fresh r → 0 ≤ r ∧ r < 1) :
    ∀ c ∈ (outs.foldl (fun h o => mutate_weight o h) g).connections,
      -2 ≤ c.weight ∧ c.weight ≤ 2 := by
  induction outs generalizing g with
  | nil => simpa using hg
  | cons o os ih =>
    simp only [List.foldl_cons]
    exact ih (mutate_weight o g)
      (mutateWeightGo_bounds o (houts o (by simp)) g.connections 0 hg)
      (fun o' ho' => houts o' (List.mem_cons_of_mem _ ho'))

/-- Witness for `C6_weight_clamp` at a concrete input. -/
theorem C6_weight_clamp_witness :
    ((∀ c ∈ c6Genome.connections, -2 ≤ c.weight ∧ c.weight ≤ 2) ∧
      (∀ o ∈ c6Outs, ∀ i r, o i = WeightRand.fresh r → 0 ≤ r ∧ r < 1)) ∧
    ∀ c ∈ (c6Outs.foldl (fun h o => mutate_weight o h) c6Genome).connections,
      -2 ≤ c.weight ∧ c.weight ≤ 2 := by
  have h1 : ∀ c ∈ c6Genome.connections, -2 ≤ c.weight ∧ c.weight ≤ 2 := by decide
  have h2 : ∀ o ∈ c6Outs, ∀ i r, o i = WeightRand.fresh r → 0 ≤ r ∧ r < 1 := by
    intro o ho i r h
    simp only [c6Outs, List.mem_singleton] at ho
    subst ho
    cases h
    norm_num
  exact ⟨⟨h1, h2⟩, C6_weight_clamp c6Genome c6Outs h1 h2⟩

/-! ### Claim C7 — link mutation safety -/

/-- Claim C7: the link mutation either leaves the genome unchanged or appends
exactly one connection between two distinct existing node ids with weight in
`[-1, 1]` that duplicates no existing (source, target) pair; and it is a
silent no-op whenever fewer than 2 distinct node ids exist. -/
theorem C7_mutate_link_safe {α : Type} [LinearOrderedField α] (g : Genome α) (i j : Nat)
    (r : α) (hr0 : 0 ≤ r) (hr1 : r < 1) :
    (mutate_link g i j r = g ∨
      ∃ c, mutate_link g i j r = { g with connections := g.connections ++ [c] } ∧
        c.in_node ≠ c.out_node ∧
        c.in_node ∈ g.nodes.map (fun n => n.idx) ∧
        c.out_node ∈ g.nodes.map (fun n => n.idx) ∧
        -1 ≤ c.weight ∧ c.weight ≤ 1 ∧
        ∀ c' ∈ g.connections, ¬(c'.in_node = c.in_node ∧ c'.out_node = c.out_node)) ∧
    ((g.nodes.map (fun n => n.idx)).dedup.length < 2 → mutate_link g i j r = g) := by
  classical
  set ids := g.nodes.map (fun n => n.idx) with hids
  by_cases hlen : ids.length < 2
  · have hg : mutate_link g i j r = g := by
      simp only [mutate_link, ← hids, if_pos hlen]
    exact ⟨Or.inl hg, fun _ => hg⟩
  · have hne : ids ≠ [] := by
      intro h
      rw [h] at hlen
      simp at hlen
    set inn := pick ids i 0 with hinn
    set poss := ids.filter (fun n => n != inn) with hposs_def
    by_cases hposs : poss = []
    · have hg : mutate_link g i j r = g := by
        simp only [mutate_link, ← hids, if_neg hlen, ← hinn, ← hposs_def, if_pos hposs]
      exact ⟨Or.inl hg, fun _ => hg⟩
    · constructor
      · set out := pick poss j 0 with hout
        by_cases hdup : (g.connections.any
            (fun c => c.in_node == inn && c.out_node == out)) = true
        · have hg : mutate_link g i j r = g := by
            simp only [mutate_link, ← hids, if_neg hlen, ← hinn, ← hposs_def,
              if_neg hposs, ← hout, if_pos hdup]
          exact Or.inl hg
        · refine Or.inr ⟨⟨connDefaultIdx, inn, out, r * 2 - 1, true⟩, ?_, ?_, ?_, ?_, ?_, ?_, ?_⟩
          · simp only [mutate_link, ← hids, if_neg hlen, ← hinn, ← hposs_def,
              if_neg hposs, ← hout, if_neg hdup]
          · have hmem : out ∈ poss := pick_mem poss j 0 hposs
            have hpf := List.mem_filter.mp (hposs_def ▸ hmem)
            have hno : out ≠ inn := by simpa using hpf.2
            intro h
            simp only at h
            exact hno h.symm
          · exact hids ▸ pick_mem ids i 0 hne
          · have hmem : out ∈ poss := pick_mem poss j 0 hposs
            have hpf := List.mem_filter.mp (hposs_def ▸ hmem)
            exact hids ▸ hpf.1
          · simp only
            linarith
          · simp only
            linarith
          · intro c' hc' hpair
            simp only at hpair
            apply hdup
            rw [List.any_eq_true]
            exact ⟨c', hc', by simp [hpair.1, hpair.2]⟩
      · intro hd
        exfalso
        have hdne : ids.dedup ≠ [] := fun h => hne ((List.dedup_eq_nil ids).mp h)
        have hone : ids.dedup.length = 1 := by
          have := List.length_pos.mpr hdne
          omega
        obtain ⟨x, hx⟩ := List.length_eq_one.mp hone
        have hall : ∀ a ∈ ids, a = x := by
          intro a ha
          have : a ∈ ids.dedup := List.mem_dedup.mpr ha
          rw [hx] at this
          exact List.eq_of_mem_singleton this
        have hinn_x : inn = x := hall inn (pick_mem ids i 0 hne)
        apply hposs
        rw [hposs_def]
        rw [List.filter_eq_nil_iff]
        intro a ha
        have : a = inn := (hall a ha).trans hinn_x.symm
        simp [this]

/-- Witness for `C7_mutate_link_safe` at a concrete input. -/
theorem C7_mutate_link_safe_witness :
    ((0 : ℚ) ≤ 1/2 ∧ (1/2 : ℚ) < 1) ∧
    ((mutate_link c7Genome 0 0 (1/2) = c7Genome ∨
      ∃ c, mutate_link c7Genome 0 0 (1/2) =
          { c7Genome with connections := c7Genome.connections ++ [c] } ∧
        c.in_node ≠ c.out_node ∧
        c.in_node ∈ c7Genome.nodes.map (fun n => n.idx) ∧
        c.out_node ∈ c7Genome.nodes.map (fun n => n.idx) ∧
        -1 ≤ c.weight ∧ c.weight ≤ 1 ∧
        ∀ c' ∈ c7Genome.connections, ¬(c'.in_node = c.in_node ∧ c'.out_node = c.out_node)) ∧
    ((c7Genome.nodes.map (fun n => n.idx)).dedup.length < 2 →
      mutate_link c7Genome 0 0 (1/2) = c7Genome)) :=
  ⟨⟨by norm_num, by norm_num⟩, C7_mutate_link_safe c7Genome 0 0 (1/2) (by norm_num) (by norm_num)⟩

/-! ### Crossover lemmas and Claims C10, C2, C4 -/

theorem crossover_eq {α : Type} [LinearOrderedField α] (s : CrossState α) (picks : Nat → Nat) :
    crossover s picks =
      ({ s with cnt := (buildChildNodes (s.a.nodes ++ s.b.nodes) s.cnt).2.2 },
        ((dedupFirst ((s.a.connections ++ s.b.connections).map (fun c => c.idx))).foldlM
            (childConnStep (buildChildNodes (s.a.nodes ++ s.b.nodes) s.cnt).2.1 s.a s.b picks)
            []).map
          (fun cs => ⟨(buildChildNodes (s.a.nodes ++ s.b.nodes) s.cnt).1, cs, 0, 0⟩)) := rfl

theorem childNodeStep_inv {α : Type} [LinearOrderedField α] (cnt : Nat)
    (ch : List (Node α)) (m : List (Nat × Nat)) (c : Nat) (n : Node α)
    (h1 : cnt ≤ c) (h2 : ∀ n' ∈ ch, cnt < n'.idx ∧ n'.idx ≤ c)
    (h3 : ∀ kv ∈ m, kv.2 ∈ ch.map (fun n' => n'.idx)) :
    cnt ≤ (childNodeStep (ch, m, c) n).2.2 ∧
    (∀ n' ∈ (childNodeStep (ch, m, c) n).1,
      cnt < n'.idx ∧ n'.idx ≤ (childNodeStep (ch, m, c) n).2.2) ∧
    (∀ kv ∈ (childNodeStep (ch, m, c) n).2.1,
      kv.2 ∈ (childNodeStep (ch, m, c) n).1.map (fun n' => n'.idx)) := by
  rw [childNodeStep]
  dsimp only
  cases hlk : m.lookup n.idx with
  | some v => exact ⟨h1, h2, h3⟩
  | none =>
    refine ⟨Nat.le_succ_of_le h1, ?_, ?_⟩
    · intro n' hn'
      rcases List.mem_append.mp hn' with h | h
      · have hx := h2 n' h
        exact ⟨hx.1, Nat.le_succ_of_le hx.2⟩
      · obtain rfl := List.eq_of_mem_singleton h
        exact ⟨Nat.lt_succ_of_le h1, Nat.le_refl _⟩
    · intro kv hkv
      rcases List.mem_append.mp hkv with h | h
      · have := h3 kv h
        rw [List.map_append]
        exact List.mem_append.mpr (Or.inl this)
      · obtain rfl := List.eq_of_mem_singleton h
        simp

theorem buildChildNodes_inv {α : Type} [LinearOrderedField α] (ns : List (Node α)) (cnt : Nat) :
    cnt ≤ (buildChildNodes ns cnt).2.2 ∧
    (∀ n ∈ (buildChildNodes ns cnt).1, cnt < n.idx ∧ n.idx ≤ (buildChildNodes ns cnt).2.2) ∧
    (∀ kv ∈ (buildChildNodes ns cnt).2.1,
      kv.2 ∈ (buildChildNodes ns cnt).1.map (fun n => n.idx)) := by
  have key := foldl_inv (childNodeStep (α := α))
    (fun st => cnt ≤ st.2.2 ∧ (∀ n ∈ st.1, cnt < n.idx ∧ n.idx ≤ st.2.2) ∧
      (∀ kv ∈ st.2.1, kv.2 ∈ st.1.map (fun n => n.idx)))
    (by
      rintro ⟨ch, m, c⟩ n ⟨h1, h2, h3⟩
      exact childNodeStep_inv cnt ch m c n h1 h2 h3)
    ns ([], [], cnt) (by simp)
  exact key

/-- Claim C10: crossover never modifies either parent — after the call both
parents' genomes are exactly as before, and only the shared allocator counter
may have advanced. -/
theorem C10_crossover_frame {α : Type} [LinearOrderedField α] (s : CrossState α)
    (picks : Nat → Nat) :
    (crossover s picks).1.a = s.a ∧ (crossover s picks).1.b = s.b ∧
    s.cnt ≤ (crossover s picks).1.cnt := by
  refine ⟨rfl, rfl, ?_⟩
  rw [crossover_eq]
  exact (buildChildNodes_inv (s.a.nodes ++ s.b.nodes) s.cnt).1

/-- Claim C2, refuted as stated: the offspring of `crossover` on `c2State`
has a node whose id equals a parent node id, so offspring node ids are not
disjoint from the parents' ids. -/
theorem C2_counterexample :
    ∃ child, (crossover c2State (fun _ => 0)).2 = some child ∧
      ∃ n ∈ child.nodes, ∃ m ∈ c2State.a.nodes, n.idx = m.idx := by
  refine ⟨⟨[⟨1, NodeType.INPUT, 0⟩], [], 0, 0⟩, by decide, ?_⟩
  exact ⟨⟨1, NodeType.INPUT, 0⟩, by decide, ⟨1, NodeType.INPUT, 0⟩, by decide, rfl⟩

/-- Claim C2 as amended: provided the allocator counter is at least every
parent node id — which the monotone allocator guarantees whenever it has not
been reset since the parents' ids were issued — the offspring's node ids are
disjoint from both parents' node id sets; and (unconditionally) every
offspring connection references only node ids present in the offspring's own
node set. -/
theorem C2_crossover_remap {α : Type} [LinearOrderedField α] (s : CrossState α)
    (picks : Nat → Nat) (child : Genome α)
    (hcnt : ∀ n ∈ s.a.nodes ++ s.b.nodes, n.idx ≤ s.cnt)
    (hchild : (crossover s picks).2 = some child) :
    (∀ n ∈ child.nodes, ∀ m ∈ s.a.nodes ++ s.b.nodes, n.idx ≠ m.idx) ∧
    (∀ c ∈ child.connections,
      c.in_node ∈ child.nodes.map (fun n => n.idx) ∧
      c.out_node ∈ child.nodes.map (fun n => n.idx)) := by
  rw [crossover_eq] at hchild
  simp only [Option.map_eq_some'] at hchild
  obtain ⟨cs, hcs, hchild⟩ := hchild
  obtain ⟨hc1, hc2, hc3⟩ := buildChildNodes_inv (s.a.nodes ++ s.b.nodes) s.cnt
  constructor
  · intro n hn m hm
    have hgt : s.cnt < n.idx := (hc2 n (by rw [← hchild] at hn; exact hn)).1
    have hle : m.idx ≤ s.cnt := hcnt m hm
    omega
  · intro c hc
    rw [← hchild] at hc
    simp only at hc
    have key := foldlM_option_inv
      (childConnStep (buildChildNodes (s.a.nodes ++ s.b.nodes) s.cnt).2.1 s.a s.b picks)
      (fun acc => ∀ c ∈ acc,
        c.in_node ∈ (buildChildNodes (s.a.nodes ++ s.b.nodes) s.cnt).1.map (fun n => n.idx) ∧
        c.out_node ∈ (buildChildNodes (s.a.nodes ++ s.b.nodes) s.cnt).1.map (fun n => n.idx))
      (by
        intro acc i acc' hstep hacc
        rw [childConnStep] at hstep
        cases hsel : selectConn s.a s.b picks i with
        | none =>
          rw [hsel] at hstep
          obtain rfl := Option.some_inj.mp hstep
          exact hacc
        | some pconn =>
          simp only [hsel] at hstep
          cases hin : (buildChildNodes (s.a.nodes ++ s.b.nodes) s.cnt).2.1.lookup
              pconn.in_node with
          | none => simp [hin] at hstep
          | some ni =>
            cases hout : (buildChildNodes (s.a.nodes ++ s.b.nodes) s.cnt).2.1.lookup
                pconn.out_node with
            | none => simp [hin, hout] at hstep
            | some no =>
              simp only [hin, hout] at hstep
              obtain rfl := Option.some_inj.mp hstep
              intro c hc
              rcases List.mem_append.mp hc with h | h
              · exact hacc c h
              · obtain rfl := List.eq_of_mem_singleton h
                exact ⟨hc3 _ (lookup_mem _ _ _ hin), hc3 _ (lookup_mem _ _ _ hout)⟩)
      _ [] cs hcs (by simp)
    have := key c hc
    rw [← hchild]
    exact this

/-- Witness for `C2_crossover_remap` at a concrete input. -/
theorem C2_crossover_remap_witness :
    ((∀ n ∈ c4State.a.nodes ++ c4State.b.nodes, n.idx ≤ c4State.cnt) ∧
      (crossover c4State (fun _ => 0)).2 =
        some ⟨[⟨11, NodeType.INPUT, 0⟩, ⟨12, NodeType.OUTPUT, 0⟩, ⟨13, NodeType.OUTPUT, 0⟩],
          [⟨7, 11, 12, 1, true⟩], 0, 0⟩) ∧
    ((∀ n ∈ (⟨[⟨11, NodeType.INPUT, 0⟩, ⟨12, NodeType.OUTPUT, 0⟩, ⟨13, NodeType.OUTPUT, 0⟩],
          [⟨7, 11, 12, 1, true⟩], 0, 0⟩ : Genome ℚ).nodes,
        ∀ m ∈ c4State.a.nodes ++ c4State.b.nodes, n.idx ≠ m.idx) ∧
      (∀ c ∈ (⟨[⟨11, NodeType.INPUT, 0⟩, ⟨12, NodeType.OUTPUT, 0⟩, ⟨13, NodeType.OUTPUT, 0⟩],
          [⟨7, 11, 12, 1, true⟩], 0, 0⟩ : Genome ℚ).connections,
        c.in_node ∈ (⟨[⟨11, NodeType.INPUT, 0⟩, ⟨12, NodeType.OUTPUT, 0⟩,
            ⟨13, NodeType.OUTPUT, 0⟩], [⟨7, 11, 12, 1, true⟩], 0, 0⟩ : Genome ℚ).nodes.map
            (fun n => n.idx) ∧
        c.out_node ∈ (⟨[⟨11, NodeType.INPUT, 0⟩, ⟨12, NodeType.OUTPUT, 0⟩,
            ⟨13, NodeType.OUTPUT, 0⟩], [⟨7, 11, 12, 1, true⟩], 0, 0⟩ : Genome ℚ).nodes.map
            (fun n => n.idx))) :=
  ⟨⟨by decide, by decide⟩,
    C2_crossover_remap c4State (fun _ => 0) _ (by decide) (by decide)⟩

theorem head?_mem {β : Type} {l : List β} {x : β} (h : l.head? = some x) : x ∈ l := by
  cases l with
  | nil => simp at h
  | cons a l =>
    obtain rfl : a = x := by simpa using h
    exact List.mem_cons_self _ _

theorem selectConn_some_spec {α : Type} [LinearOrderedField α] (a b : Genome α)
    (picks : Nat → Nat) (innov : Nat) (pc : Connection α)
    (h : selectConn a b picks innov = some pc) :
    pc.idx = innov ∧ (pc ∈ a.connections ∨ pc ∈ b.connections) := by
  have from_filter : ∀ (conns : List (Connection α)),
      pc ∈ conns.filter (fun c => c.idx == innov) → pc.idx = innov ∧ pc ∈ conns := by
    intro conns hmem
    obtain ⟨h1, h2⟩ := List.mem_filter.mp hmem
    exact ⟨by simpa using h2, h1⟩
  simp only [selectConn] at h
  split_ifs at h with h1 h2 h3
  · have hmem := List.getElem?_mem h
    rcases List.mem_append.mp hmem with hm | hm
    · obtain ⟨hi, hm⟩ := from_filter _ hm
      exact ⟨hi, Or.inl hm⟩
    · obtain ⟨hi, hm⟩ := from_filter _ hm
      exact ⟨hi, Or.inr hm⟩
  · obtain ⟨hi, hm⟩ := from_filter _ (head?_mem h)
    exact ⟨hi, Or.inl hm⟩
  · obtain ⟨hi, hm⟩ := from_filter _ (head?_mem h)
    exact ⟨hi, Or.inr hm⟩

theorem childConnStep_cases {α : Type} [LinearOrderedField α] (m : List (Nat × Nat))
    (a b : Genome α) (picks : Nat → Nat) (acc : List (Connection α)) (i : Nat)
    (acc' : List (Connection α)) (h : childConnStep m a b picks acc i = some acc') :
    (selectConn a b picks i = none ∧ acc' = acc) ∨
    ∃ pc ni no, selectConn a b picks i = some pc ∧
      m.lookup pc.in_node = some ni ∧ m.lookup pc.out_node = some no ∧
      acc' = acc ++ [⟨pc.idx, ni, no, pc.weight, pc.enabled⟩] := by
  rw [childConnStep] at h
  cases hsel : selectConn a b picks i with
  | none =>
    simp only [hsel] at h
    exact Or.inl ⟨rfl, (Option.some_inj.mp h).symm⟩
  | some pc =>
    simp only [hsel] at h
    cases hin : m.lookup pc.in_node with
    | none => simp [hin] at h
    | some ni =>
      cases hout : m.lookup pc.out_node with
      | none => simp [hin, hout] at h
      | some no =>
        simp only [hin, hout] at h
        exact Or.inr ⟨pc, ni, no, rfl, hin, hout, (Option.some_inj.mp h).symm⟩

theorem foldlM_childConn_subset {α : Type} [LinearOrderedField α] (m : List (Nat × Nat))
    (a b : Genome α) (picks : Nat → Nat) :
    ∀ (l : List Nat) (acc res : List (Connection α)),
      List.foldlM (childConnStep m a b picks) acc l = some res → ∀ c ∈ acc, c ∈ res := by
  intro l
  induction l with
  | nil =>
    intro acc res h c hc
    rw [List.foldlM_nil] at h
    obtain rfl : acc = res := by simpa using h
    exact hc
  | cons i l ih =>
    intro acc res h c hc
    rw [List.foldlM_cons] at h
    cases hstep : childConnStep m a b picks acc i with
    | none => rw [hstep] at h; simp at h
    | some acc1 =>
      rw [hstep] at h
      have hh : List.foldlM (childConnStep m a b picks) acc1 l = some res := by simpa using h
      rcases childConnStep_cases m a b picks acc i acc1 hstep with ⟨_, rfl⟩ |
        ⟨pc, ni, no, _, _, _, rfl⟩
      · exact ih _ res hh c hc
      · exact ih _ res hh c (List.mem_append.mpr (Or.inl hc))

theorem foldlM_childConn_count_ne {α : Type} [LinearOrderedField α] (m : List (Nat × Nat))
    (a b : Genome α) (picks : Nat → Nat) (t : Nat) :
    ∀ (l : List Nat) (acc res : List (Connection α)),
      (∀ i ∈ l, i ≠ t) →
      List.foldlM (childConnStep m a b picks) acc l = some res →
      res.countP (fun c => c.idx == t) = acc.countP (fun c => c.idx == t) := by
  intro l
  induction l with
  | nil =>
    intro acc res _ h
    rw [List.foldlM_nil] at h
    obtain rfl : acc = res := by simpa using h
    rfl
  | cons i l ih =>
    intro acc res hne h
    rw [List.foldlM_cons] at h
    cases hstep : childConnStep m a b picks acc i with
    | none => rw [hstep] at h; simp at h
    | some acc1 =>
      rw [hstep] at h
      have hh : List.foldlM (childConnStep m a b picks) acc1 l = some res := by simpa using h
      have hrest := ih acc1 res (fun j hj => hne j (List.mem_cons_of_mem _ hj)) hh
      rcases childConnStep_cases m a b picks acc i acc1 hstep with ⟨_, rfl⟩ |
        ⟨pc, ni, no, hsel, _, _, rfl⟩
      · exact hrest
      · rw [hrest, List.countP_append]
        have hidx : pc.idx = i := (selectConn_some_spec a b picks i pc hsel).1
        have hit : i ≠ t := hne i (List.mem_cons_self _ _)
        simp [List.countP_cons, hidx, hit]

theorem foldlM_childConn_count {α : Type} [LinearOrderedField α] (m : List (Nat × Nat))
    (a b : Genome α) (picks : Nat → Nat) :
    ∀ (l : List Nat) (acc res : List (Connection α)), l.Nodup →
      List.foldlM (childConnStep m a b picks) acc l = some res →
      ∀ t ∈ l, ∀ pc, selectConn a b picks t = some pc →
        res.countP (fun c => c.idx == t) = acc.countP (fun c => c.idx == t) + 1 ∧
        ∃ c ∈ res, c.idx = t ∧ c.weight = pc.weight ∧ c.enabled = pc.enabled := by
  intro l
  induction l with
  | nil => intro acc res _ _ t ht; simp at ht
  | cons i l ih =>
    intro acc res hnd h t ht pc hpc
    rw [List.foldlM_cons] at h
    cases hstep : childConnStep m a b picks acc i with
    | none => rw [hstep] at h; simp at h
    | some acc1 =>
      rw [hstep] at h
      have hh : List.foldlM (childConnStep m a b picks) acc1 l = some res := by simpa using h
      obtain ⟨hnotin, hndl⟩ := List.nodup_cons.mp hnd
      rcases List.mem_cons.mp ht with rfl | htl
      · rcases childConnStep_cases m a b picks acc t acc1 hstep with ⟨hnone, _⟩ |
          ⟨pc', ni, no, hsel, hin, hout, rfl⟩
        · rw [hnone] at hpc; exact absurd hpc (by simp)
        · have hpceq : pc' = pc := by rw [hsel] at hpc; exact Option.some_inj.mp hpc
          have hidx : pc'.idx = t := (selectConn_some_spec a b picks t pc' hsel).1
          have hrest := foldlM_childConn_count_ne m a b picks t l _ res
            (fun j hj hjt => hnotin (hjt ▸ hj)) hh
          refine ⟨?_, ?_⟩
          · rw [hrest, List.countP_append]
            simp [List.countP_cons, hidx]
          · have hmem : (⟨pc'.idx, ni, no, pc'.weight, pc'.enabled⟩ : Connection α) ∈ res :=
              foldlM_childConn_subset m a b picks l _ res hh _ (by simp)
            exact ⟨_, hmem, hidx, by rw [hpceq], by rw [hpceq]⟩
      · have htne : t ≠ i := fun hti => hnotin (hti ▸ htl)
        have hacc1 : acc1.countP (fun c => c.idx == t) = acc.countP (fun c => c.idx == t) := by
          rcases childConnStep_cases m a b picks acc i acc1 hstep with ⟨_, rfl⟩ |
            ⟨pc', ni, no, hsel, _, _, rfl⟩
          · rfl
          · have hidx : pc'.idx = i := (selectConn_some_spec a b picks i pc' hsel).1
            rw [List.countP_append]
            simp [List.countP_cons, hidx, htne.symm]
        obtain ⟨h1, h2⟩ := ih acc1 res hndl hh t htl pc hpc
        exact ⟨by rw [h1, hacc1], h2⟩

/-- Claim C4: when both parents carry exactly one copy of gene id `k`, the
offspring contains exactly one connection with gene id `k`, and its weight
and enabled flag are those of one of the two parents' copies — never an
average or a fresh value. -/
theorem C4_crossover_gene_preservation {α : Type} [LinearOrderedField α] (s : CrossState α)
    (picks : Nat → Nat) (child : Genome α) (k : Nat) (ca cb : Connection α)
    (ha : s.a.connections.filter (fun c => c.idx == k) = [ca])
    (hb : s.b.connections.filter (fun c => c.idx == k) = [cb])
    (hchild : (crossover s picks).2 = some child) :
    child.connections.countP (fun c => c.idx == k) = 1 ∧
    ∃ c ∈ child.connections, c.idx = k ∧
      ((c.weight = ca.weight ∧ c.enabled = ca.enabled) ∨
        (c.weight = cb.weight ∧ c.enabled = cb.enabled)) := by
  rw [crossover_eq] at hchild
  simp only [Option.map_eq_some'] at hchild
  obtain ⟨cs, hcs, hchild⟩ := hchild
  subst hchild
  have hca_mem : ca ∈ s.a.connections ∧ (ca.idx == k) = true :=
    List.mem_filter.mp (by rw [ha]; simp)
  have hk : k ∈ dedupFirst ((s.a.connections ++ s.b.connections).map (fun c => c.idx)) := by
    rw [mem_dedupFirst]
    exact List.mem_map.mpr ⟨ca, List.mem_append.mpr (Or.inl hca_mem.1), by simpa using hca_mem.2⟩
  have hsel : selectConn s.a s.b picks k = some ca ∨ selectConn s.a s.b picks k = some cb := by
    simp only [selectConn, ha, hb]
    rw [if_pos (by simp)]
    rcases Nat.mod_two_eq_zero_or_one (picks k) with h | h
    · left
      simp only [List.cons_append, List.nil_append, List.length_cons, List.length_nil]
      rw [h]
      rfl
    · right
      simp only [List.cons_append, List.nil_append, List.length_cons, List.length_nil]
      rw [h]
      rfl
  have hnd := nodup_dedupFirst ((s.a.connections ++ s.b.connections).map (fun c => c.idx))
  rcases hsel with hsel | hsel
  · obtain ⟨h1, c, hcmem, hcidx, hcw, hce⟩ :=
      foldlM_childConn_count _ s.a s.b picks _ [] cs hnd hcs k hk ca hsel
    exact ⟨by simpa using h1, ⟨c, hcmem, hcidx, Or.inl ⟨hcw, hce⟩⟩⟩
  · obtain ⟨h1, c, hcmem, hcidx, hcw, hce⟩ :=
      foldlM_childConn_count _ s.a s.b picks _ [] cs hnd hcs k hk cb hsel
    exact ⟨by simpa using h1, ⟨c, hcmem, hcidx, Or.inr ⟨hcw, hce⟩⟩⟩

/-- Witness for `C4_crossover_gene_preservation` at a concrete input: both
parents of `c4State` carry gene id 7. -/
theorem C4_crossover_gene_preservation_witness :
    (c4State.a.connections.filter (fun c => c.idx == 7) = [⟨7, 1, 2, 1, true⟩] ∧
      c4State.b.connections.filter (fun c => c.idx == 7) = [⟨7, 1, 3, 0, false⟩] ∧
      (crossover c4State (fun _ => 0)).2 =
        some ⟨[⟨11, NodeType.INPUT, 0⟩, ⟨12, NodeType.OUTPUT, 0⟩, ⟨13, NodeType.OUTPUT, 0⟩],
          [⟨7, 11, 12, 1, true⟩], 0, 0⟩) ∧
    ((⟨[⟨11, NodeType.INPUT, 0⟩, ⟨12, NodeType.OUTPUT, 0⟩, ⟨13, NodeType.OUTPUT, 0⟩],
        [⟨7, 11, 12, 1, true⟩], 0, 0⟩ : Genome ℚ).connections.countP
          (fun c => c.idx == 7) = 1 ∧
      ∃ c ∈ (⟨[⟨11, NodeType.INPUT, 0⟩, ⟨12, NodeType.OUTPUT, 0⟩, ⟨13, NodeType.OUTPUT, 0⟩],
        [⟨7, 11, 12, 1, true⟩], 0, 0⟩ : Genome ℚ).connections, c.idx = 7 ∧
        ((c.weight = (⟨7, 1, 2, 1, true⟩ : Connection ℚ).weight ∧
            c.enabled = (⟨7, 1, 2, 1, true⟩ : Connection ℚ).enabled) ∨
          (c.weight = (⟨7, 1, 3, 0, false⟩ : Connection ℚ).weight ∧
            c.enabled = (⟨7, 1, 3, 0, false⟩ : Connection ℚ).enabled))) :=
  ⟨⟨by decide, by decide, by decide⟩,
    C4_crossover_gene_preservation c4State (fun _ => 0) _ 7 ⟨7, 1, 2, 1, true⟩
      ⟨7, 1, 3, 0, false⟩ (by decide) (by decide) (by decide)⟩

/-! ### Claim C8 — bias mutation is inert across activation -/

theorem resetNodes_modifyAt_value {α : Type} [LinearOrderedField α] (d : α) :
    ∀ (ns : List (Node α)) (p : Nat),
      (∀ hp : p < ns.length, ns[p].ntype ≠ NodeType.INPUT) →
      resetNodes (modifyAt (fun n => { n with value := n.value + d }) ns p) = resetNodes ns := by
  intro ns
  induction ns with
  | nil => intro p _; rfl
  | cons n t ih =>
    intro p hp
    cases p with
    | zero =>
      have hn : n.ntype ≠ NodeType.INPUT := by simpa using hp (by simp)
      simp only [modifyAt, resetNodes, List.map_cons]
      congr 1
      simp [hn]
    | succ p =>
      simp only [modifyAt, resetNodes, List.map_cons]
      congr 1
      exact ih p (fun hlt => by simpa using hp (by simpa using hlt))

theorem activateFull_congr {α : Type} [LinearOrderedField α] (act : α → α)
    (g1 g2 : Genome α) (xs : List α) (h1 : resetNodes g1.nodes = resetNodes g2.nodes)
    (h2 : g1.connections = g2.connections) :
    activateFull act g1 xs = activateFull act g2 xs := by
  simp only [activateFull]
  rw [h1, h2]

/-- Claim C8: running the bias mutation — for any coin flip, draw and noise —
and then activating produces exactly the same post-activation node state and
the same output vector as activating alone, because `activate`
unconditionally resets every non-input node's value first. -/
theorem C8_bias_inert {α : Type} [LinearOrderedField α] (act : α → α) (g : Genome α)
    (coin : Bool) (k : Nat) (d : α) (xs : List α) :
    activateFull act (mutate_bias g coin k d) xs = activateFull act g xs := by
  rw [mutate_bias]
  cases hc : !(((indexed g.nodes).filter
      (fun q => q.2.ntype == NodeType.OUTPUT)).map Prod.fst).isEmpty && coin with
  | false => rw [if_neg (by simp [hc])]
  | true =>
    rw [if_pos (by simp [hc])]
    have hne : ((indexed g.nodes).filter
        (fun q => q.2.ntype == NodeType.OUTPUT)).map Prod.fst ≠ [] := by
      intro hnil
      rw [Bool.and_eq_true] at hc
      rw [hnil] at hc
      simp at hc
    have hp := pick_mem _ k 0 hne
    obtain ⟨⟨q1, q2⟩, hqmem, hq1⟩ := List.mem_map.mp hp
    obtain ⟨hqi, hqo⟩ := List.mem_filter.mp hqmem
    obtain ⟨hlt, hget⟩ := mem_indexed g.nodes (q1, q2) hqi
    apply activateFull_congr
    · simp only
      apply resetNodes_modifyAt_value
      intro hplen
      have hq1' : q1 = pick (((indexed g.nodes).filter
          (fun q => q.2.ntype == NodeType.OUTPUT)).map Prod.fst) k 0 := hq1
      subst hq1'
      have hnode : g.nodes[pick (((indexed g.nodes).filter
          (fun q => q.2.ntype == NodeType.OUTPUT)).map Prod.fst) k 0] = q2 := by
        have h1 := List.getElem?_eq_getElem hplen
        rw [hget] at h1
        exact (Option.some_inj.mp h1).symm
      rw [hnode]
      have hq2 : q2.ntype = NodeType.OUTPUT := by simpa using hqo
      rw [hq2]
      intro hcontra
      exact absurd hcontra (by simp)
    · rfl

/-! ### Claim C9 — activation outputs lie in [-1, 1] -/

theorem tanh_bounds (x : ℝ) : -1 < Real.tanh x ∧ Real.tanh x < 1 := by
  have hc := Real.cosh_pos x
  have h1 : Real.sinh x < Real.cosh x := by
    nlinarith [Real.exp_pos (-x), Real.cosh_sub_sinh x]
  have h2 : -Real.cosh x < Real.sinh x := by
    nlinarith [Real.exp_pos x, Real.cosh_add_sinh x]
  rw [Real.tanh_eq_sinh_div_cosh]
  constructor
  · rw [neg_lt, ← neg_div, div_lt_one hc]
    linarith
  · rw [div_lt_one hc]
    exact h1

theorem onePass_form {α : Type} [LinearOrderedField α] (act : α → α)
    (conns : List (Connection α)) (ns ns' : List (Node α))
    (h : onePass act conns ns = some ns') :
    ∃ nsx : List (Node α), ns' = nsx.map
      (fun n => if n.ntype = NodeType.INPUT then n else { n with value := act n.value }) := by
  simp only [onePass, bind, Option.bind_eq_some] at h
  obtain ⟨nsx, _, hx⟩ := h
  exact ⟨nsx, (Option.some_inj.mp hx).symm⟩

theorem activateFull_decomp {α : Type} [LinearOrderedField α] (act : α → α) (g : Genome α)
    (xs : List α) (ns : List (Node α)) (out : List α)
    (h : activateFull act g xs = some (ns, out)) :
    ∃ ns2 ns3, onePass act g.connections (setInputs (resetNodes g.nodes) xs) = some ns2 ∧
      onePass act g.connections ns2 = some ns3 ∧
      onePass act g.connections ns3 = some ns ∧
      out = (sortByKey (fun n => n.idx) (ns.filter (fun n => n.ntype == NodeType.OUTPUT))).map
        (fun n => n.value) := by
  simp only [activateFull, bind, Option.bind_eq_some] at h
  obtain ⟨ns2, h2, ns3, h3, ns4, h4, hp⟩ := h
  have hp2 := Option.some_inj.mp hp
  rw [Prod.mk.injEq] at hp2
  obtain ⟨rfl, rfl⟩ := hp2
  exact ⟨ns2, ns3, h2, h3, h4, rfl⟩

/-- Claim C9: every element of the list returned by `activate` lies in
`[-1, 1]`, because the tanh nonlinearity is the last operation applied to
every non-input node — including every output node — in the final pass. -/
theorem C9_output_range (g : Genome ℝ) (xs : List ℝ) (ns : List (Node ℝ)) (out : List ℝ)
    (h : activateFull Real.tanh g xs = some (ns, out)) :
    ∀ y ∈ out, -1 ≤ y ∧ y ≤ 1 := by
  obtain ⟨ns2, ns3, _, _, h4, hout⟩ := activateFull_decomp Real.tanh g xs ns out h
  intro y hy
  rw [hout] at hy
  obtain ⟨n, hn, rfl⟩ := List.mem_map.mp hy
  obtain ⟨hnmem, hnout⟩ := List.mem_filter.mp ((mem_sortByKey _ n _).mp hn)
  obtain ⟨nsx, rfl⟩ := onePass_form Real.tanh g.connections ns3 ns h4
  obtain ⟨n0, _, rfl⟩ := List.mem_map.mp hnmem
  by_cases h0 : n0.ntype = NodeType.INPUT
  · rw [if_pos h0, h0] at hnout
    exact absurd hnout (by decide)
  · rw [if_neg h0] at hnout ⊢
    simp only
    obtain ⟨hb1, hb2⟩ := tanh_bounds n0.value
    exact ⟨le_of_lt hb1, le_of_lt hb2⟩

/-- Witness for `C9_output_range` at a concrete input: the empty genome
activates to `some ([], [])`. -/
theorem C9_output_range_witness :
    activateFull Real.tanh emptyGenome [] = some ([], []) ∧
    ∀ y ∈ ([] : List ℝ), -1 ≤ y ∧ y ≤ 1 :=
  ⟨rfl, C9_output_range emptyGenome [] [] [] rfl⟩

/-! ### Claim C5 — shape-preservation layer

Every step of the activation algorithm only rewrites node values, so the
`nshape` skeleton is invariant, which lets positional updates (object
mutation) be exchanged for id-keyed updates (the spec's description) as long
as ids are distinct. -/

theorem map_idx_of_nshape {α : Type} {a b : List (Node α)} (h : nshape a = nshape b) :
    a.map (fun n => n.idx) = b.map (fun n => n.idx) := by
  have ha : a.map (fun n => n.idx) = (nshape a).map Prod.fst := by
    rw [nshape, List.map_map]; rfl
  have hb : b.map (fun n => n.idx) = (nshape b).map Prod.fst := by
    rw [nshape, List.map_map]; rfl
  rw [ha, hb, h]

theorem length_of_nshape {α : Type} {a b : List (Node α)} (h : nshape a = nshape b) :
    a.length = b.length := by
  have := congrArg List.length h
  simpa [nshape] using this

theorem filter_ntype_length_of_nshape {α : Type} {a b : List (Node α)} (T : NodeType)
    (h : nshape a = nshape b) :
    (a.filter (fun n => n.ntype == T)).length = (b.filter (fun n => n.ntype == T)).length := by
  have ha : (a.filter (fun n => n.ntype == T)).length
      = ((nshape a).filter (fun q => q.2 == T)).length := by
    rw [← List.countP_eq_length_filter, ← List.countP_eq_length_filter, nshape,
      List.countP_map]
    rfl
  have hb : (b.filter (fun n => n.ntype == T)).length
      = ((nshape b).filter (fun q => q.2 == T)).length := by
    rw [← List.countP_eq_length_filter, ← List.countP_eq_length_filter, nshape,
      List.countP_map]
    rfl
  rw [ha, hb, h]

theorem getElem_idx_of_map_idx {α : Type} {a b : List (Node α)}
    (h : a.map (fun n => n.idx) = b.map (fun n => n.idx)) (i : Nat)
    (hia : i < a.length) (hib : i < b.length) : a[i].idx = b[i].idx := by
  have h1 : (a.map (fun n => n.idx))[i]? = (b.map (fun n => n.idx))[i]? := by rw [h]
  rw [List.getElem?_map, List.getElem?_map, List.getElem?_eq_getElem hia,
    List.getElem?_eq_getElem hib] at h1
  simpa using h1

theorem nshape_map {α : Type} (f : Node α → Node α)
    (hf : ∀ n, (f n).idx = n.idx ∧ (f n).ntype = n.ntype) (ns : List (Node α)) :
    nshape (ns.map f) = nshape ns := by
  rw [nshape, nshape, List.map_map]
  apply List.map_congr_left
  intro n _
  simp [Function.comp, (hf n).1, (hf n).2]

theorem nshape_modifyAt {α : Type} (f : Node α → Node α)
    (hf : ∀ n, (f n).idx = n.idx ∧ (f n).ntype = n.ntype) :
    ∀ (ns : List (Node α)) (p : Nat), nshape (modifyAt f ns p) = nshape ns := by
  intro ns
  induction ns with
  | nil => intro p; rfl
  | cons n t ih =>
    intro p
    cases p with
    | zero =>
      simp only [modifyAt, nshape, List.map_cons]
      rw [(hf n).1, (hf n).2]
    | succ p =>
      simp only [modifyAt, nshape, List.map_cons]
      have := ih p
      rw [nshape, nshape] at this
      rw [this]

theorem nshape_updateById {α : Type} (id : Nat) (f : Node α → Node α)
    (hf : ∀ n, (f n).idx = n.idx ∧ (f n).ntype = n.ntype) (ns : List (Node α)) :
    nshape (updateById id f ns) = nshape ns := by
  rw [updateById]
  apply nshape_map
  intro n
  by_cases h : n.idx = id
  · rw [if_pos h]; exact hf n
  · rw [if_neg h]; exact ⟨rfl, rfl⟩

theorem nshape_resetNodes {α : Type} [LinearOrderedField α] (ns : List (Node α)) :
    nshape (resetNodes ns) = nshape ns := by
  rw [resetNodes]
  apply nshape_map
  intro n
  by_cases h : n.ntype = NodeType.INPUT
  · rw [if_pos h]; exact ⟨rfl, rfl⟩
  · rw [if_neg h]; exact ⟨rfl, rfl⟩

theorem nshape_setInputs {α : Type} [LinearOrderedField α] (ns : List (Node α)) (xs : List α) :
    nshape (setInputs ns xs) = nshape ns := by
  rw [setInputs]
  generalize ((inputPairs ns).map Prod.fst).zip xs = l
  induction l generalizing ns with
  | nil => rfl
  | cons pv l ih =>
    rw [List.foldl_cons]
    rw [ih (modifyAt (fun n => { n with value := pv.2 }) ns pv.1)]
    exact nshape_modifyAt (fun n => { n with value := pv.2 }) (fun n => ⟨rfl, rfl⟩) ns pv.1

theorem applyConn_nshape {α : Type} [LinearOrderedField α] (ns ns' : List (Node α))
    (c : Connection α) (h : applyConn ns c = some ns') : nshape ns' = nshape ns := by
  rw [applyConn] at h
  cases hf : ns.find? (fun n => n.idx == c.in_node) with
  | none => rw [hf] at h; simp at h
  | some src =>
    cases hp : firstIdx (fun n => n.idx == c.out_node) ns with
    | none => rw [hf, hp] at h; simp at h
    | some p =>
      rw [hf, hp] at h
      obtain rfl := (Option.some_inj.mp h).symm
      exact nshape_modifyAt
        (fun n => { n with value := n.value + (if c.enabled then src.value * c.weight else 0) })
        (fun n => ⟨rfl, rfl⟩) ns p

theorem specApplyConn_nshape {α : Type} [LinearOrderedField α] (ns ns' : List (Node α))
    (c : Connection α) (h : specApplyConn ns c = some ns') : nshape ns' = nshape ns := by
  simp only [specApplyConn, bind, Option.bind_eq_some] at h
  obtain ⟨src, _, h⟩ := h
  obtain ⟨tgt, _, h⟩ := h
  obtain rfl := (Option.some_inj.mp h).symm
  exact nshape_updateById c.out_node
    (fun n => { n with value := n.value + (if c.enabled then src.value * c.weight else 0) })
    (fun n => ⟨rfl, rfl⟩) ns

theorem foldlM_applyConn_nshape {α : Type} [LinearOrderedField α]
    (conns : List (Connection α)) (ns ns' : List (Node α))
    (h : List.foldlM applyConn ns conns = some ns') : nshape ns' = nshape ns :=
  foldlM_option_inv applyConn (fun m => nshape m = nshape ns)
    (fun m c m' hm hP => (applyConn_nshape m m' c hm).trans hP) conns ns ns' h rfl

theorem foldlM_specApplyConn_nshape {α : Type} [LinearOrderedField α]
    (conns : List (Connection α)) (ns ns' : List (Node α))
    (h : List.foldlM specApplyConn ns conns = some ns') : nshape ns' = nshape ns :=
  foldlM_option_inv specApplyConn (fun m => nshape m = nshape ns)
    (fun m c m' hm hP => (specApplyConn_nshape m m' c hm).trans hP) conns ns ns' h rfl

theorem onePass_nshape {α : Type} [LinearOrderedField α] (act : α → α)
    (conns : List (Connection α)) (ns ns' : List (Node α))
    (h : onePass act conns ns = some ns') : nshape ns' = nshape ns := by
  simp only [onePass, bind, Option.bind_eq_some] at h
  obtain ⟨nsx, hx, h⟩ := h
  obtain rfl := (Option.some_inj.mp h).symm
  rw [nshape_map]
  · exact foldlM_applyConn_nshape conns ns nsx hx
  · intro n
    by_cases hn : n.ntype = NodeType.INPUT
    · rw [if_pos hn]; exact ⟨rfl, rfl⟩
    · rw [if_neg hn]; exact ⟨rfl, rfl⟩

theorem specPass_nshape {α : Type} [LinearOrderedField α] (act : α → α)
    (conns : List (Connection α)) (ns ns' : List (Node α))
    (h : specPass act conns ns = some ns') : nshape ns' = nshape ns := by
  simp only [specPass, bind, Option.bind_eq_some] at h
  obtain ⟨nsx, hx, h⟩ := h
  obtain rfl := (Option.some_inj.mp h).symm
  rw [nshape_map]
  · exact foldlM_specApplyConn_nshape conns ns nsx hx
  · intro n
    by_cases hn : n.ntype = NodeType.INPUT
    · rw [if_pos hn]; exact ⟨rfl, rfl⟩
    · rw [if_neg hn]; exact ⟨rfl, rfl⟩

/-! ### Claim C5 — positional updates agree with id-keyed updates -/

theorem modifyAt_eq_updateById {α : Type} (f : Node α → Node α) (ns : List (Node α))
    (p : Nat) (id : Nat) (hnd : (ns.map (fun n => n.idx)).Nodup) (hp : p < ns.length)
    (hid : ns[p].idx = id) :
    modifyAt f ns p = updateById id f ns := by
  apply List.ext_getElem
  · simp [length_modifyAt, updateById]
  · intro i h1 h2
    have hilen : i < ns.length := by rwa [length_modifyAt] at h1
    rw [getElem_modifyAt f ns p i hilen h1]
    simp only [updateById, List.getElem_map]
    by_cases hpi : p = i
    · subst hpi
      rw [if_pos rfl, if_pos hid]
    · rw [if_neg hpi]
      have hne : ns[i].idx ≠ id := by
        intro he
        apply hpi
        have hp2 : p < (ns.map (fun n => n.idx)).length := by simpa using hp
        have hi2 : i < (ns.map (fun n => n.idx)).length := by simpa using hilen
        have h3 : (ns.map (fun n => n.idx))[p] = (ns.map (fun n => n.idx))[i] := by
          rw [List.getElem_map, List.getElem_map, hid, he]
        exact (hnd.getElem_inj_iff).mp h3
      rw [if_neg hne]

theorem find?_eq_none_of_firstIdx {β : Type} (p : β → Bool) (l : List β)
    (h : firstIdx p l = none) : l.find? p = none := by
  cases hf : l.find? p with
  | none => rfl
  | some x =>
    have := find?_isSome_iff_firstIdx p l
    rw [hf, h] at this
    simp at this

theorem find?_isSome_of_firstIdx {β : Type} (p : β → Bool) (l : List β) (i : Nat)
    (h : firstIdx p l = some i) : ∃ x, l.find? p = some x := by
  have := find?_isSome_iff_firstIdx p l
  rw [h] at this
  simp only [Option.isSome_some, iff_true] at this
  exact Option.isSome_iff_exists.mp this

theorem applyConn_eq_spec {α : Type} [LinearOrderedField α] (ns : List (Node α))
    (c : Connection α) (hnd : (ns.map (fun n => n.idx)).Nodup) :
    applyConn ns c = specApplyConn ns c := by
  rw [applyConn, specApplyConn]
  cases hfin : ns.find? (fun n => n.idx == c.in_node) with
  | none => simp [hfin]
  | some src =>
    cases hfidx : firstIdx (fun n => n.idx == c.out_node) ns with
    | none =>
      have hfon := find?_eq_none_of_firstIdx (fun n => n.idx == c.out_node) ns hfidx
      simp [hfin, hfon]
    | some p =>
      obtain ⟨hplt, hpred, _⟩ := firstIdx_some (fun n => n.idx == c.out_node) ns p hfidx
      obtain ⟨tgt, hfon⟩ := find?_isSome_of_firstIdx (fun n => n.idx == c.out_node) ns p hfidx
      simp only [hfin, hfon, bind, Option.some_bind]
      rw [modifyAt_eq_updateById
        (fun n => { n with value := n.value + (if c.enabled then src.value * c.weight else 0) })
        ns p c.out_node hnd hplt (by simpa using hpred)]
      rfl

theorem foldlM_applyConn_eq {α : Type} [LinearOrderedField α] (conns : List (Connection α)) :
    ∀ (ns : List (Node α)), (ns.map (fun n => n.idx)).Nodup →
      List.foldlM applyConn ns conns = List.foldlM specApplyConn ns conns := by
  induction conns with
  | nil => intro ns _; rfl
  | cons c cs ih =>
    intro ns hnd
    rw [List.foldlM_cons, List.foldlM_cons, ← applyConn_eq_spec ns c hnd]
    cases hac : applyConn ns c with
    | none => simp [hac]
    | some ns' =>
      simp only [hac, bind, Option.some_bind]
      have hnd' : (ns'.map (fun n => n.idx)).Nodup := by
        rw [map_idx_of_nshape (applyConn_nshape ns ns' c hac)]
        exact hnd
      exact ih ns' hnd'

theorem onePass_eq_spec {α : Type} [LinearOrderedField α] (act : α → α)
    (conns : List (Connection α)) (ns : List (Node α))
    (hnd : (ns.map (fun n => n.idx)).Nodup) :
    onePass act conns ns = specPass act conns ns := by
  rw [onePass, specPass, foldlM_applyConn_eq conns ns hnd]

theorem map_snd_indexedFrom {β : Type} (l : List β) :
    ∀ i, (indexedFrom i l).map Prod.snd = l := by
  induction l with
  | nil => intro i; rfl
  | cons a l ih => intro i; simp [indexedFrom, ih]

theorem map_snd_indexed {β : Type} (l : List β) : (indexed l).map Prod.snd = l :=
  map_snd_indexedFrom l 0

theorem fold_modify_eq_update {α : Type} [LinearOrderedField α] :
    ∀ (pairs : List (Nat × Node α)) (xs : List α) (ns : List (Node α)),
      (ns.map (fun n => n.idx)).Nodup →
      (∀ q ∈ pairs, ∃ _ : q.1 < ns.length, ns[q.1].idx = q.2.idx) →
      ((pairs.map Prod.fst).zip xs).foldl
          (fun acc pv => modifyAt (fun n => { n with value := pv.2 }) acc pv.1) ns =
        ((pairs.map (fun q => q.2.idx)).zip xs).foldl
          (fun acc iv => updateById iv.1 (fun n => { n with value := iv.2 }) acc) ns := by
  intro pairs
  induction pairs with
  | nil => intro xs ns _ _; rfl
  | cons q pairs ih =>
    intro xs ns hnd hpq
    cases xs with
    | nil => rfl
    | cons x xs =>
      simp only [List.map_cons, List.zip_cons_cons, List.foldl_cons]
      obtain ⟨hlt, hidx⟩ := hpq q (by simp)
      rw [modifyAt_eq_updateById (fun n => { n with value := x }) ns q.1 q.2.idx hnd hlt hidx]
      have hshape := nshape_updateById q.2.idx (fun n => { n with value := x })
        (fun n => ⟨rfl, rfl⟩) ns
      have hmapidx := map_idx_of_nshape hshape
      have hlen := length_of_nshape hshape
      apply ih
      · rw [hmapidx]; exact hnd
      · intro q' hq'
        obtain ⟨hlt', hidx'⟩ := hpq q' (List.mem_cons_of_mem _ hq')
        have hlt2 : q'.1 < (updateById q.2.idx (fun n => { n with value := x }) ns).length := by
          rw [hlen]; exact hlt'
        refine ⟨hlt2, ?_⟩
        rw [getElem_idx_of_map_idx hmapidx q'.1 hlt2 hlt']
        exact hidx'

theorem setInputs_eq_spec {α : Type} [LinearOrderedField α] (ns : List (Node α)) (xs : List α)
    (hnd : (ns.map (fun n => n.idx)).Nodup) : setInputs ns xs = specSetInputsKeep ns xs := by
  have hfil : ((indexed ns).filter (fun q => q.2.ntype == NodeType.INPUT)).map Prod.snd
      = ns.filter (fun n => n.ntype == NodeType.INPUT) := by
    have h1 := List.filter_map (p := fun n : Node α => n.ntype == NodeType.INPUT)
      (Prod.snd (α := Nat) (β := Node α)) (indexed ns)
    rw [map_snd_indexed] at h1
    exact h1.symm
  have hb1 : sortByKey (fun n => n.idx) (ns.filter (fun n => n.ntype == NodeType.INPUT))
      = (inputPairs ns).map Prod.snd := by
    rw [inputPairs]
    have h2 := map_sortByKey (Prod.snd (α := Nat) (β := Node α)) (fun n : Node α => n.idx)
      ((indexed ns).filter (fun q => q.2.ntype == NodeType.INPUT))
    rw [hfil] at h2
    exact h2.symm
  have hpq : ∀ q ∈ inputPairs ns, ∃ _ : q.1 < ns.length, ns[q.1].idx = q.2.idx := by
    intro q hq
    have hqf : q ∈ (indexed ns).filter (fun q => q.2.ntype == NodeType.INPUT) := by
      rw [inputPairs] at hq
      exact (mem_sortByKey _ q _).mp hq
    obtain ⟨hqi, _⟩ := List.mem_filter.mp hqf
    obtain ⟨hlt, hget⟩ := mem_indexed ns q hqi
    refine ⟨hlt, ?_⟩
    have h1 := List.getElem?_eq_getElem hlt
    rw [hget] at h1
    rw [(Option.some_inj.mp h1).symm]
  rw [setInputs, specSetInputsKeep, hb1, List.map_map]
  exact fold_modify_eq_update (inputPairs ns) xs ns hnd hpq

theorem activateFull_eq_spec {α : Type} [LinearOrderedField α] (act : α → α) (g : Genome α)
    (xs : List α) (hnd : (g.nodes.map (fun n => n.idx)).Nodup) :
    activateFull act g xs = activateSpecKeep act g xs := by
  have hnd0 : ((resetNodes g.nodes).map (fun n => n.idx)).Nodup := by
    rw [map_idx_of_nshape (nshape_resetNodes g.nodes)]
    exact hnd
  have hnd1 : ((setInputs (resetNodes g.nodes) xs).map (fun n => n.idx)).Nodup := by
    rw [map_idx_of_nshape (nshape_setInputs (resetNodes g.nodes) xs)]
    exact hnd0
  simp only [activateFull, activateSpecKeep, bind]
  rw [← setInputs_eq_spec (resetNodes g.nodes) xs hnd0]
  rw [onePass_eq_spec act g.connections _ hnd1]
  cases h2 : specPass act g.connections (setInputs (resetNodes g.nodes) xs) with
  | none => rfl
  | some ns2 =>
    have hnd2 : (ns2.map (fun n => n.idx)).Nodup := by
      rw [map_idx_of_nshape (specPass_nshape act g.connections _ ns2 h2)]
      exact hnd1
    simp only [Option.some_bind]
    rw [onePass_eq_spec act g.connections ns2 hnd2]
    cases h3 : specPass act g.connections ns2 with
    | none => rfl
    | some ns3 =>
      have hnd3 : (ns3.map (fun n => n.idx)).Nodup := by
        rw [map_idx_of_nshape (specPass_nshape act g.connections ns2 ns3 h3)]
        exact hnd2
      simp only [Option.some_bind]
      rw [onePass_eq_spec act g.connections ns3 hnd3]

/-- Claim C5, refuted as stated: `c5Genome` has pairwise-distinct node ids,
yet activating it with an empty input vector does not follow the claim's
reference algorithm — the code keeps the surplus input node's stale value 1,
while the reference algorithm says surplus input nodes keep 0, and that value
feeds the propagation passes. -/
theorem C5_counterexample :
    (c5Genome.nodes.map (fun n => n.idx)).Nodup ∧
    activateFull Real.tanh c5Genome [] ≠ activateSpec Real.tanh c5Genome [] := by
  refine ⟨by simp [c5Genome], ?_⟩
  intro h
  have h1 : (activateFull Real.tanh c5Genome []).map
      (fun p => p.1.head?.map (fun n => n.value)) = some (some (1 : ℝ)) := rfl
  have h2 : (activateSpec Real.tanh c5Genome []).map
      (fun p => p.1.head?.map (fun n => n.value)) = some (some (0 : ℝ)) := rfl
  rw [h, h2] at h1
  simp only [Option.some_inj] at h1
  exact zero_ne_one h1

/-- Claim C5 as amended: on a genome with pairwise-distinct node ids,
`activate` follows the reference algorithm of the specification — id-sorted
input assignment with truncation, exactly three accumulated propagation
passes, each applying every connection (0 when disabled) and then tanh in
place on every non-input node, and output values by ascending id — with one
deviation: the reset zeroes only non-input nodes, so input nodes beyond the
input length keep their previous value rather than 0.  The output length
equals the number of output nodes. -/
theorem C5_activate_follows_reference (g : Genome ℝ) (xs : List ℝ)
    (hnd : (g.nodes.map (fun n => n.idx)).Nodup) :
    activateFull Real.tanh g xs = activateSpecKeep Real.tanh g xs ∧
    ∀ ns out, activateFull Real.tanh g xs = some (ns, out) →
      out.length = (g.nodes.filter (fun n => n.ntype == NodeType.OUTPUT)).length := by
  refine ⟨activateFull_eq_spec Real.tanh g xs hnd, ?_⟩
  intro ns out h
  obtain ⟨ns2, ns3, h2, h3, h4, hout⟩ := activateFull_decomp Real.tanh g xs ns out h
  have s1 : nshape (setInputs (resetNodes g.nodes) xs) = nshape g.nodes :=
    (nshape_setInputs _ xs).trans (nshape_resetNodes g.nodes)
  have s2 := onePass_nshape Real.tanh g.connections _ ns2 h2
  have s3 := onePass_nshape Real.tanh g.connections ns2 ns3 h3
  have s4 := onePass_nshape Real.tanh g.connections ns3 ns h4
  have hsh : nshape ns = nshape g.nodes := s4.trans (s3.trans (s2.trans s1))
  rw [hout, List.length_map, length_sortByKey]
  exact filter_ntype_length_of_nshape NodeType.OUTPUT hsh

/-- Witness for `C5_activate_follows_reference` at a concrete input. -/
theorem C5_activate_follows_reference_witness :
    (emptyGenome.nodes.map (fun n => n.idx)).Nodup ∧
    (activateFull Real.tanh emptyGenome [] = activateSpecKeep Real.tanh emptyGenome [] ∧
      ∀ ns out, activateFull Real.tanh emptyGenome [] = some (ns, out) →
        out.length = (emptyGenome.nodes.filter (fun n => n.ntype == NodeType.OUTPUT)).length) :=
  ⟨by simp [emptyGenome], C5_activate_follows_reference emptyGenome [] (by simp [emptyGenome])⟩

end Clage
